import Mathlib

/-!
# lxc-group: group directories and membership symlinks

A shallow embedding of `src/lxc/tools/lxc_group.c`.

The C functions act on the filesystem through system calls.  The filesystem is
modelled as a finite table from canonical paths to entry kinds; the system
calls (`mkdir`, `rmdir`, `unlink`, `remove`, `symlink`, `lstat`, `access`,
`opendir`/`readdir`) are modelled on that table with their POSIX results, and
the C functions are then translated statement by statement on top of them.
Path resolution follows symbolic links and handles `.` and `..`.  Permissions
are not modelled (the tool runs as root); a removal can be refused by the kernel
through an explicit `deny` parameter of `unlink` and `rmdir`.

C strings are NUL-free byte strings, one `Char` per byte.
-/

namespace LxcGroup

/-! ## Filesystem model -/

/-- A C string: the bytes before the terminating NUL. -/
abbrev CStr := List Char

/-- A canonical path: the component names from the root directory downwards. -/
abbrev Path := List CStr

/-- What `lstat` reports about an entry (`st_mode` file type).  `other` stands
for every type that is neither `S_IFREG`, `S_IFLNK` nor `S_IFDIR` (FIFO, socket,
device node). -/
inductive Kind where
  | reg : Kind
  | lnk (target : CStr) : Kind
  | dir : Kind
  | other : Kind
deriving DecidableEq, Repr

/-- The `errno` values the model distinguishes. -/
inductive Errno where
  | ENOENT | EEXIST | ENOTDIR | EISDIR | ENOTEMPTY | EINVAL | EBUSY | EPERM | ELOOP
deriving DecidableEq, Repr

/-- A filesystem state: the entries below the root directory, each with its
canonical path.  The root directory itself (path `[]`) always exists. -/
abbrev Fs := List (Path × Kind)

/-- The kind of the entry stored at a canonical path, if any. -/
def kindAt (fs : Fs) (p : Path) : Option Kind :=
  match p with
  | [] => some Kind.dir
  | _ :: _ => (fs.find? (fun e => decide (e.1 = p))).map (fun e => e.2)

/-- Does the entry path `q` lie strictly below the directory path `p`? -/
def below (p q : Path) : Bool :=
  decide (p <+: q) && decide (q ≠ p)

/-- The entry names of directory `p`, in table order (what successive `readdir`
calls return, without the `.` and `..` pseudo-entries). -/
def childNames (fs : Fs) (p : Path) : List CStr :=
  fs.filterMap (fun e =>
    match e.1.getLast? with
    | some n => if e.1.dropLast = p then some n else none
    | none => none)

/-- Remove the entry stored at canonical path `p`. -/
def erase (fs : Fs) (p : Path) : Fs :=
  fs.filter (fun e => decide (e.1 ≠ p))

/-- Split a C path at the `/` separators; `cur` is the component being read.
Empty components (repeated or trailing separators) are dropped. -/
def splitAux : CStr → CStr → List CStr
  | cur, [] => if cur = [] then [] else [cur]
  | cur, c :: cs =>
    if c = '/' then
      (if cur = [] then splitAux [] cs else cur :: splitAux [] cs)
    else splitAux (cur ++ [c]) cs

/-- The components of a C path. -/
def comps (s : CStr) : List CStr := splitAux [] s

/-- One pass of path resolution over the remaining components. -/
inductive Step where
  | done (p : Path) : Step
  | hop (cur : Path) (target : CStr) (rest : List CStr) : Step
  | err (e : Errno) : Step
deriving DecidableEq, Repr

/-- Walk the components `rest` starting in directory `cur`, up to the first
symbolic link that has to be followed.  `follow` says whether a symbolic link
in the final component is followed. The final component may name a missing
entry (the caller decides what that means); every earlier one must be a
directory. -/
def walk1 (fs : Fs) (follow : Bool) : Path → List CStr → Step
  | cur, [] => Step.done cur
  | cur, c :: rest =>
    if c = ['.'] then walk1 fs follow cur rest
    else if c = ['.', '.'] then walk1 fs follow cur.dropLast rest
    else
      match kindAt fs (cur ++ [c]) with
      | none => if rest = [] then Step.done (cur ++ [c]) else Step.err Errno.ENOENT
      | some Kind.dir => walk1 fs follow (cur ++ [c]) rest
      | some (Kind.lnk t) =>
        if rest = [] ∧ follow = false then Step.done (cur ++ [c])
        else Step.hop cur t rest
      | some _ => if rest = [] then Step.done (cur ++ [c]) else Step.err Errno.ENOTDIR

/-- Path resolution with at most `hops` symbolic links followed (`ELOOP`
beyond that). -/
def resolveFrom (fs : Fs) (follow : Bool) : Nat → Path → List CStr → Except Errno Path
  | 0, _, _ => Except.error Errno.ELOOP
  | k + 1, cur, rest =>
    match walk1 fs follow cur rest with
    | Step.done p => Except.ok p
    | Step.err e => Except.error e
    | Step.hop cur1 t rest1 =>
      resolveFrom fs follow k (if t.head? = some '/' then [] else cur1) (comps t ++ rest1)

/-- The number of symbolic links the kernel follows in one resolution. -/
def MAXSYMLINKS : Nat := 40

/-- Resolve an absolute C path to the canonical path of the entry it names. -/
def namei (fs : Fs) (follow : Bool) (path : CStr) : Except Errno Path :=
  if path = [] then Except.error Errno.ENOENT
  else resolveFrom fs follow (MAXSYMLINKS + 1) [] (comps path)

/-! ## System calls -/

/-- Has directory `p` no entries? -/
def isEmptyDir (fs : Fs) (p : Path) : Bool :=
  fs.all (fun e => !below p e.1)

/-- Result of `lstat(path, &buf)`: the kind of the entry itself. -/
def sys_lstat (fs : Fs) (path : CStr) : Except Errno Kind :=
  match namei fs false path with
  | Except.error e => Except.error e
  | Except.ok p =>
    match kindAt fs p with
    | none => Except.error Errno.ENOENT
    | some k => Except.ok k

/-- Result of `access(path, F_OK)`: symbolic links are followed. -/
def sys_access (fs : Fs) (path : CStr) : Except Errno Unit :=
  match namei fs true path with
  | Except.error e => Except.error e
  | Except.ok p =>
    match kindAt fs p with
    | none => Except.error Errno.ENOENT
    | some _ => Except.ok ()

/-- Result of `opendir(path)`: the canonical path of the directory opened.
Symbolic links are followed. -/
def sys_opendir (fs : Fs) (path : CStr) : Except Errno Path :=
  match namei fs true path with
  | Except.error e => Except.error e
  | Except.ok p =>
    match kindAt fs p with
    | none => Except.error Errno.ENOENT
    | some Kind.dir => Except.ok p
    | some _ => Except.error Errno.ENOTDIR

/-- Result of `unlink(path)`.  `deny` tells for which entries the kernel refuses
removal (immutable entry, read-only mount, ...). -/
def sys_unlink (deny : Path → Bool) (fs : Fs) (path : CStr) : Except Errno Fs :=
  match namei fs false path with
  | Except.error e => Except.error e
  | Except.ok p =>
    match kindAt fs p with
    | none => Except.error Errno.ENOENT
    | some Kind.dir => Except.error Errno.EISDIR
    | some _ => if deny p then Except.error Errno.EPERM else Except.ok (erase fs p)

/-- Result of `rmdir(path)`. -/
def sys_rmdir (deny : Path → Bool) (fs : Fs) (path : CStr) : Except Errno Fs :=
  if (comps path).getLast? = some ['.'] then Except.error Errno.EINVAL
  else
    match namei fs false path with
    | Except.error e => Except.error e
    | Except.ok p =>
      match kindAt fs p with
      | none => Except.error Errno.ENOENT
      | some Kind.dir =>
        if p = [] then Except.error Errno.EBUSY
        else if isEmptyDir fs p = false then Except.error Errno.ENOTEMPTY
        else if deny p then Except.error Errno.EPERM
        else Except.ok (erase fs p)
      | some _ => Except.error Errno.ENOTDIR

/-- Result of the C library's `remove(path)`: `unlink`, and `rmdir` when that
fails because the entry is a directory. -/
def sys_remove (deny : Path → Bool) (fs : Fs) (path : CStr) : Except Errno Fs :=
  match sys_unlink deny fs path with
  | Except.ok fs1 => Except.ok fs1
  | Except.error Errno.EISDIR => sys_rmdir deny fs path
  | Except.error e => Except.error e

/-- Result of `mkdir(path, mode)`. -/
def sys_mkdir (fs : Fs) (path : CStr) : Except Errno Fs :=
  match namei fs false path with
  | Except.error e => Except.error e
  | Except.ok p =>
    match kindAt fs p with
    | some _ => Except.error Errno.EEXIST
    | none => Except.ok (fs ++ [(p, Kind.dir)])

/-- Result of `symlink(target, linkpath)`. -/
def sys_symlink (fs : Fs) (target linkpath : CStr) : Except Errno Fs :=
  if target = [] then Except.error Errno.ENOENT
  else
    match namei fs false linkpath with
    | Except.error e => Except.error e
    | Except.ok p =>
      match kindAt fs p with
      | some _ => Except.error Errno.EEXIST
      | none => Except.ok (fs ++ [(p, Kind.lnk target)])

/-- The process state the C functions act on: the filesystem and `errno`
(`none` is 0). -/
structure World where
  fs : Fs
  errno : Option Errno
deriving DecidableEq, Repr

/-- Turn a system call's result into the C convention: 0 on success; -1 with
`errno` set on failure. -/
def World.call (w : World) (r : Except Errno Fs) : World × Int :=
  match r with
  | Except.ok fs1 => ({ w with fs := fs1 }, 0)
  | Except.error e => ({ w with errno := some e }, -1)

/-- Ways in which a call yields no result: `overflow`, the C code reads or
writes outside a fixed-size buffer (undefined behaviour); `fuel`, the bound on
the nesting of recursive calls given to the model is used up. -/
inductive Fault where
  | overflow : Fault
  | fuel : Fault
deriving DecidableEq, Repr

/-! ## The C functions -/

/-- The registry root, `#define GROUPPATH`. -/
def GROUPPATH : CStr := "/usr/local/var/lib/lxcgroup".toList

/-- The result of `snprintf(s, len, "%s/%s", a, b)` when it fits. -/
def join2 (a b : CStr) : CStr := a ++ '/' :: b

/-- The loop of `_mkdir`, `for (p = tmp + 1; *p; p++)`: `pre` is the part of
`tmp` before `p`. At every separator the part before it is created; `ret` holds
the result of the last `mkdir`. -/
def mkdirLoop : World × Int → CStr → CStr → World × Int
  | st, _, [] => st
  | st, pre, c :: cs =>
    if c = '/' then mkdirLoop (st.1.call (sys_mkdir st.1.fs pre)) (pre ++ [c]) cs
    else mkdirLoop st (pre ++ [c]) cs

/-- The function `_mkdir(dir)`.  `tmp` holds at most 255 bytes of `dir`;
an empty `dir` makes the code read `tmp[-1]`.  The logging macro `ERROR` (from
`log.h`) saves and restores `errno`, so it does not show in the state. -/
def _mkdir (w : World) (dir : CStr) : Except Fault (World × Int) :=
  let tmp0 := dir.take 255
  match tmp0 with
  | [] => Except.error Fault.overflow
  | c0 :: _ =>
    let tmp := if tmp0.getLast? = some '/' then tmp0.dropLast else tmp0
    let st := mkdirLoop (w, -1) [c0] (tmp.drop 1)
    if st.2 ≠ 0 ∧ st.1.errno ≠ some Errno.EEXIST then Except.ok (st.1, -1)
    else
      let st2 := st.1.call (sys_mkdir st.1.fs tmp)
      if st2.2 ≠ 0 then Except.ok (st2.1, -1)
      else Except.ok (st2.1, st2.2)

/-- The function `do_create_group_dir(path)`.  The `umask` calls leave the
model's state alone; `errno` is saved and restored around them. -/
def do_create_group_dir (w : World) (path : CStr) : Except Fault (World × Int) :=
  match _mkdir w path with
  | Except.error f => Except.error f
  | Except.ok (w1, ret) =>
    if ret ≠ 0 then
      (if w1.errno ≠ some Errno.EEXIST then Except.ok (w1, -1) else Except.ok (w1, 0))
    else Except.ok (w1, ret)

/-- The function `create_group_dir(groupname)`. -/
def create_group_dir (w : World) (groupname : CStr) : Except Fault (World × Bool) :=
  match do_create_group_dir w (join2 GROUPPATH groupname) with
  | Except.error f => Except.error f
  | Except.ok (w1, ret) => Except.ok (w1, decide (ret = 0))

/-- The `while ((file = readdir(dir_ptr)) != NULL)` loop of `rmdirs` over the
entry names still to be read.  `self` is `rmdirs` itself, for nested
directories.  The result `some r` is an early `return r`; `none` means the loop
ran to its end. -/
def rmdirsLoop (self : World → CStr → Except Fault (World × Int)) (deny : Path → Bool)
    (path : CStr) (is_error_stop : Bool) : World → List CStr → Except Fault (World × Option Int)
  | w, [] => Except.ok (w, none)
  | w, d :: ds =>
    if d = ['.'] ∨ d = ['.', '.'] then rmdirsLoop self deny path is_error_stop w ds
    else if path.length + d.length + 2 > 1024 then Except.error Fault.overflow
    else
      match sys_lstat w.fs (join2 path d) with
      | Except.error e => rmdirsLoop self deny path is_error_stop { w with errno := some e } ds
      | Except.ok Kind.dir =>
        match self w (join2 path d) with
        | Except.error f => Except.error f
        | Except.ok (w1, r) =>
          if r = -1 ∧ is_error_stop = true then Except.ok (w1, some (-1))
          else rmdirsLoop self deny path is_error_stop w1 ds
      | Except.ok Kind.other => rmdirsLoop self deny path is_error_stop w ds
      | Except.ok _ =>
        let st := w.call (sys_unlink deny w.fs (join2 path d))
        if st.2 = -1 ∧ is_error_stop = true then Except.ok (st.1, some (-1))
        else rmdirsLoop self deny path is_error_stop st.1 ds

/-- The function `rmdirs(path, is_error_stop)`; the first argument bounds the
nesting of the recursive calls.  The names that `readdir` returns are those of
the entries present when the directory is opened. -/
def rmdirs (deny : Path → Bool) (is_error_stop : Bool) :
    Nat → World → CStr → Except Fault (World × Int)
  | 0, _, _ => Except.error Fault.fuel
  | k + 1, w, path =>
    match sys_opendir w.fs path with
    | Except.error e =>
      Except.ok (World.call { w with errno := some e } (sys_unlink deny w.fs path))
    | Except.ok d =>
      match rmdirsLoop (rmdirs deny is_error_stop k) deny path is_error_stop w
          (childNames w.fs d) with
      | Except.error f => Except.error f
      | Except.ok (w1, some r) => Except.ok (w1, r)
      | Except.ok (w1, none) => Except.ok (w1.call (sys_rmdir deny w1.fs path))

/-- The function `force_destroy_group_dir(groupname)`. -/
def force_destroy_group_dir (deny : Path → Bool) (fuel : Nat) (w : World) (groupname : CStr) :
    Except Fault (World × Bool) :=
  match rmdirs deny false fuel w (join2 GROUPPATH groupname) with
  | Except.error f => Except.error f
  | Except.ok (w1, ret) => Except.ok (w1, decide (ret = 0))

/-- The function `do_destroy_group_dir(path)`: the result of `rmdir` only
decides whether a message is logged. -/
def do_destroy_group_dir (deny : Path → Bool) (w : World) (path : CStr) : World × Int :=
  let st := w.call (sys_rmdir deny w.fs path)
  (st.1, 0)

/-- The function `destroy_group_dir(groupname)`. -/
def destroy_group_dir (deny : Path → Bool) (w : World) (groupname : CStr) : World × Bool :=
  let st := do_destroy_group_dir deny w (join2 GROUPPATH groupname)
  (st.1, decide (st.2 = 0))

/-- The function `create_group_symlink(c, groupname, containername)`.
`defined` is `c->is_defined(c)` and `lxcpath` is
`lxc_global_config_value("lxc.lxcpath")`. -/
def create_group_symlink (defined : Bool) (lxcpath : CStr) (w : World)
    (groupname containername : CStr) : World × Bool :=
  if defined = false then (w, false)
  else
    let oldpath := join2 lxcpath containername
    let sympath := join2 (join2 GROUPPATH groupname) containername
    match sys_access w.fs sympath with
    | Except.ok _ => (w, false)
    | Except.error e =>
      let st := World.call { w with errno := some e } (sys_symlink w.fs oldpath sympath)
      (st.1, decide (st.2 = 0))

/-- The function `delete_group_symlink(c, groupname, containername)`. -/
def delete_group_symlink (deny : Path → Bool) (defined : Bool) (w : World)
    (groupname containername : CStr) : World × Bool :=
  if defined = false then (w, false)
  else
    let sympath := join2 (join2 GROUPPATH groupname) containername
    let st := w.call (sys_remove deny w.fs sympath)
    (st.1, decide (st.2 = 0))

/-- The C library's `strncmp(a, b, n)`: the difference of the first bytes that
differ among the first `n`, the terminating NUL counting as byte 0. -/
def strncmp : CStr → CStr → Nat → Int
  | _, _, 0 => 0
  | [], [], _ + 1 => 0
  | [], y :: _, _ + 1 => 0 - (y.toNat : Int)
  | x :: _, [], _ + 1 => (x.toNat : Int)
  | x :: a, y :: b, n + 1 =>
    if x = y then strncmp a b n else (x.toNat : Int) - (y.toNat : Int)

/-- The four operations `main` dispatches to. -/
inductive Verb where
  | create | destroy | add | del
deriving DecidableEq, Repr

/-- The canonical spelling of a verb, the string literal `main` compares with. -/
def Verb.text : Verb → CStr
  | Verb.create => "create".toList
  | Verb.destroy => "destroy".toList
  | Verb.add => "add".toList
  | Verb.del => "del".toList

/-- The branch the `if`/`else if` chain of `main` takes for the verb token
`cmd`; `none` is the final `else`. -/
def selectVerb (cmd : CStr) : Option Verb :=
  if strncmp cmd Verb.create.text cmd.length = 0 then some Verb.create
  else if strncmp cmd Verb.destroy.text cmd.length = 0 then some Verb.destroy
  else if strncmp cmd Verb.add.text cmd.length = 0 then some Verb.add
  else if strncmp cmd Verb.del.text cmd.length = 0 then some Verb.del
  else none

/-- The fields of `my_args` that `main` reads after argument parsing. -/
structure Arguments where
  argv0 : CStr
  argv1 : CStr
  groupname : CStr
  name : CStr
  force : Bool
deriving DecidableEq, Repr

/-- Exit status `EXIT_SUCCESS`. -/
def EXIT_SUCCESS : Int := 0

/-- Exit status `EXIT_FAILURE`. -/
def EXIT_FAILURE : Int := 1

/-- Exit status of `main` from an operation's boolean result. -/
def exitOf (r : World × Bool) : World × Int :=
  (r.1, if r.2 = true then EXIT_SUCCESS else EXIT_FAILURE)

/-- The dispatch part of `main` (from `cmd = my_args.argv[0]` on), after the
privilege check, argument parsing and container lookup have passed. -/
def main (deny : Path → Bool) (fuel : Nat) (defined : Bool) (lxcpath : CStr)
    (my_args : Arguments) (w : World) : Except Fault (World × Int) :=
  match selectVerb my_args.argv0 with
  | some Verb.create => (create_group_dir w my_args.groupname).map exitOf
  | some Verb.destroy =>
    if my_args.force = true then
      (force_destroy_group_dir deny fuel w my_args.groupname).map exitOf
    else Except.ok (exitOf (destroy_group_dir deny w my_args.groupname))
  | some Verb.add =>
    Except.ok (exitOf (create_group_symlink defined lxcpath w my_args.argv1 my_args.name))
  | some Verb.del =>
    Except.ok (exitOf (delete_group_symlink deny defined w my_args.argv1 my_args.name))
  | none => Except.ok (w, EXIT_FAILURE)

deriving instance DecidableEq for Except

/-! ## Example states -/

/-- The canonical path of the registry root. -/
def rootPath : Path := comps GROUPPATH

/-- A filesystem holding the registry root and its ancestors only. -/
def fsRoot : Fs :=
  [(rootPath.take 1, Kind.dir), (rootPath.take 2, Kind.dir), (rootPath.take 3, Kind.dir),
   (rootPath.take 4, Kind.dir), (rootPath, Kind.dir)]

/-- The group name `web`. -/
def web : CStr := "web".toList

/-- The container name `c1`. -/
def c1 : CStr := "c1".toList

/-- The registry with the empty group `web`. -/
def fsWeb : Fs := fsRoot ++ [(rootPath ++ [web], Kind.dir)]

/-- The registry with the group `web` holding the membership link `c1`. -/
def fsWebC1 : Fs := fsWeb ++ [(rootPath ++ [web, c1], Kind.lnk "/containers/c1".toList)]

/-- No removal is refused. -/
def allow : Path → Bool := fun _ => false

/-- The canonical path of the directory of group `g`. -/
def groupDir (g : CStr) : Path := rootPath ++ [g]

/-- The only removal the kernel refuses is that of the membership link
`web/c1`. -/
def denyC1 : Path → Bool := fun p => decide (p = groupDir web ++ [c1])

/-- The group `web` holding the directory `sub` that holds a FIFO `p`. -/
def fsFifo : Fs :=
  fsWeb ++ [(groupDir web ++ ["sub".toList], Kind.dir),
            (groupDir web ++ ["sub".toList, "p".toList], Kind.other)]

/-- An entry name of 255 bytes (`NAME_MAX`). -/
def nameA : CStr := List.replicate 255 'a'

/-- The group `web` with directories named `nameA` nested three deep and a
regular file named `nameA` in the innermost one. -/
def fsDeep : Fs :=
  fsWeb ++ [(groupDir web ++ [nameA], Kind.dir), (groupDir web ++ [nameA, nameA], Kind.dir),
    (groupDir web ++ [nameA, nameA, nameA], Kind.dir),
    (groupDir web ++ [nameA, nameA, nameA, nameA], Kind.reg)]

/-- The registry in which `web` is a symbolic link to the directory `/data`,
which holds the regular file `f`. -/
def fsLink : Fs :=
  fsRoot ++ [(groupDir web, Kind.lnk "/data".toList), (["data".toList], Kind.dir),
             (["data".toList, "f".toList], Kind.reg)]

/-! ## Predicates on states -/

/-- A name that can be a directory entry: non-empty, without `/`, and neither
`.` nor `..`. -/
def ValidName (n : CStr) : Prop :=
  n ≠ [] ∧ '/' ∉ n ∧ n ≠ ['.'] ∧ n ≠ ['.', '.']

instance (n : CStr) : Decidable (ValidName n) := by unfold ValidName; infer_instance

/-- The directory at canonical path `p` is a real directory: `p` and all its
ancestors are directories of the table (none is a symbolic link), and its
components are entry names. -/
def RealDir (fs : Fs) (p : Path) : Prop :=
  (∀ q, q <+: p → kindAt fs q = some Kind.dir) ∧ ∀ n ∈ p, ValidName n

/-- The length of the C string that spells the components `rest` below a
directory, each preceded by its separator. -/
def pathLen (rest : Path) : Nat :=
  (rest.map (fun c => c.length + 1)).sum

/-- The state `fs1` arises from `fs` by removing entries, all of them inside the
region `S` of canonical paths; nothing is added or altered. -/
def Shrink (S : Path → Prop) (fs fs1 : Fs) : Prop :=
  ∃ keep : Path → Bool, fs1 = fs.filter (fun e => keep e.1) ∧ ∀ q, ¬ S q → keep q = true

/-- Every entry of the table has entry names as components. -/
def NamesOk (fs : Fs) : Prop :=
  ∀ e ∈ fs, ∀ n ∈ e.1, ValidName n

/-- What a call `rmdirs(path, ...)` on a real directory guarantees whatever
fails on the way: only entries at or below the directory are removed, and none
whose kind is `other`; result 0 means nothing at or below it is left; any other
result means the directory itself is still there. -/
def FrameSpec (self : World → CStr → Except Fault (World × Int)) : Prop :=
  ∀ (w : World) (path : CStr) (p : Path) (w1 : World) (r : Int),
    RealDir w.fs p → comps path = p → path ≠ [] → p ≠ [] → NamesOk w.fs →
    self w path = Except.ok (w1, r) →
      Shrink (fun q => p <+: q ∧ kindAt w.fs q ≠ some Kind.other) w.fs w1.fs ∧
      (r = 0 → ∀ e ∈ w1.fs, ¬ p <+: e.1) ∧
      (r ≠ 0 → kindAt w1.fs p = some Kind.dir)

/-- Every path that `rmdirs(path, ...)` builds at or below the directory `p`
(spelled `path`) fits, with its terminating NUL, into `char filename[1024]`. -/
def Fits (fs : Fs) (p : Path) (path : CStr) : Prop :=
  ∀ e ∈ fs, ∀ rest, e.1 = p ++ rest → rest ≠ [] → path.length + pathLen rest < 1024

/-- No entry lies `fuel` or more levels below the directory `p`. -/
def Shallow (fs : Fs) (p : Path) (fuel : Nat) : Prop :=
  ∀ e ∈ fs, ∀ rest, e.1 = p ++ rest → rest.length < fuel

/-- The subtree at `p` can be removed entirely: no removal in it is refused, it
holds regular files, symbolic links and directories only, and every entry in it
lies in a directory (each of its ancestors down from `p` is a directory). -/
def CleanAt (deny : Path → Bool) (fs : Fs) (p : Path) : Prop :=
  ∀ e ∈ fs, p <+: e.1 →
    deny e.1 = false ∧ (e.1 ≠ p → e.2 ≠ Kind.other) ∧
    ∀ q, p <+: q → q <+: e.1 → q ≠ e.1 → kindAt fs q = some Kind.dir

/-- What a call `rmdirs(path, ...)` with enough recursion depth guarantees on a
real directory whose paths fit the buffer: it returns, and it returns 0 when
the subtree can be removed entirely. -/
def ProgSpec (deny : Path → Bool) (fuel : Nat)
    (self : World → CStr → Except Fault (World × Int)) : Prop :=
  ∀ (w : World) (path : CStr) (p : Path),
    RealDir w.fs p → comps path = p → path ≠ [] → p ≠ [] → NamesOk w.fs →
    Fits w.fs p path → Shallow w.fs p fuel →
      ∃ w1 r, self w path = Except.ok (w1, r) ∧ (CleanAt deny w.fs p → r = 0)

instance (fs : Fs) (p : Path) : Decidable (RealDir fs p) :=
  decidable_of_iff ((∀ q ∈ p.inits, kindAt fs q = some Kind.dir) ∧ ∀ n ∈ p, ValidName n)
    (by simp [RealDir, List.mem_inits])

instance (fs : Fs) : Decidable (NamesOk fs) := by unfold NamesOk; infer_instance

instance (fs : Fs) (p : Path) (path : CStr) : Decidable (Fits fs p path) :=
  decidable_of_iff
    (∀ e ∈ fs, p <+: e.1 → e.1.drop p.length ≠ [] →
      path.length + pathLen (e.1.drop p.length) < 1024)
    (by
      constructor
      · intro h e he rest hr hne
        have h1 := h e he ⟨rest, hr.symm⟩
        rw [hr, List.drop_left] at h1
        exact h1 hne
      · intro h e he hpre hne
        obtain ⟨rest, hr⟩ := hpre
        have h1 := h e he rest hr.symm
        rw [← hr, List.drop_left] at hne ⊢
        exact h1 hne)

instance (fs : Fs) (p : Path) (fuel : Nat) : Decidable (Shallow fs p fuel) :=
  decidable_of_iff (∀ e ∈ fs, p <+: e.1 → (e.1.drop p.length).length < fuel)
    (by
      constructor
      · intro h e he rest hr
        have h1 := h e he ⟨rest, hr.symm⟩
        rw [hr, List.drop_left] at h1
        exact h1
      · intro h e he hpre
        obtain ⟨rest, hr⟩ := hpre
        have h1 := h e he rest hr.symm
        rw [← hr, List.drop_left]
        exact h1)

instance (deny : Path → Bool) (fs : Fs) (p : Path) : Decidable (CleanAt deny fs p) :=
  decidable_of_iff
    (∀ e ∈ fs, p <+: e.1 →
      deny e.1 = false ∧ (e.1 ≠ p → e.2 ≠ Kind.other) ∧
      ∀ q ∈ e.1.inits, p <+: q → q ≠ e.1 → kindAt fs q = some Kind.dir)
    (by
      simp only [CleanAt, List.mem_inits]
      constructor
      · intro h e he hpre
        obtain ⟨h1, h2, h3⟩ := h e he hpre
        exact ⟨h1, h2, fun q hq1 hq2 hq3 => h3 q hq2 hq1 hq3⟩
      · intro h e he hpre
        obtain ⟨h1, h2, h3⟩ := h e he hpre
        exact ⟨h1, h2, fun q hq1 hq2 hq3 => h3 q hq2 hq1 hq3⟩)

/-- The successive `mkdir` calls of the loop of `_mkdir` for the path
components `segs` below the directory spelled `path`. -/
def mkdirChain : World × Int → CStr → List CStr → World × Int
  | st, _, [] => st
  | st, path, n :: ns => mkdirChain (st.1.call (sys_mkdir st.1.fs (join2 path n))) (join2 path n) ns

/-- The C string `path/n1/n2/...`. -/
def joinAll : CStr → List CStr → CStr
  | path, [] => path
  | path, n :: ns => joinAll (join2 path n) ns

/-- The C string `n1/n2/.../`. -/
def segString : List CStr → CStr
  | [] => []
  | n :: ns => n ++ '/' :: segString ns

/-- The subtree at `q`, at or below the directory `p`, is one that `rmdirs` on
`p` reaches and can remove entirely: every directory on the way down from `p`
to `q` is a directory, `q` itself is not of unknown kind, and the subtree at `q`
can be removed entirely. -/
def Removable (deny : Path → Bool) (fs : Fs) (p q : Path) : Prop :=
  p <+: q ∧ (∀ r, p <+: r → r <+: q → r ≠ q → kindAt fs r = some Kind.dir) ∧
  kindAt fs q ≠ some Kind.other ∧ CleanAt deny fs q

instance (deny : Path → Bool) (fs : Fs) (p q : Path) : Decidable (Removable deny fs p q) :=
  decidable_of_iff
    (p <+: q ∧ (∀ r ∈ q.inits, p <+: r → r ≠ q → kindAt fs r = some Kind.dir) ∧
      kindAt fs q ≠ some Kind.other ∧ CleanAt deny fs q)
    (by
      simp only [Removable, List.mem_inits]
      constructor
      · rintro ⟨h1, h2, h3, h4⟩
        exact ⟨h1, fun r hr1 hr2 hr3 => h2 r hr2 hr1 hr3, h3, h4⟩
      · rintro ⟨h1, h2, h3, h4⟩
        exact ⟨h1, fun r hr1 hr2 hr3 => h2 r hr2 hr1 hr3, h3, h4⟩)

/-- What a best-effort call `rmdirs(path, 0)` guarantees on a real directory
whose paths fit the buffer, with enough recursion depth: it returns, and every
subtree that it reaches and that can be removed entirely is gone afterwards,
whatever failed elsewhere. -/
def BestEffortSpec (deny : Path → Bool) (fuel : Nat)
    (self : World → CStr → Except Fault (World × Int)) : Prop :=
  ∀ (w : World) (path : CStr) (p : Path),
    RealDir w.fs p → comps path = p → path ≠ [] → p ≠ [] → NamesOk w.fs →
    Fits w.fs p path → Shallow w.fs p fuel →
      ∃ w1 r, self w path = Except.ok (w1, r) ∧
        ∀ q, Removable deny w.fs p q → ∀ e ∈ w1.fs, ¬ q <+: e.1

/-- The group `web` holding the membership links `c1` and `c2`. -/
def fsTwo : Fs := fsWebC1 ++ [(groupDir web ++ ["c2".toList], Kind.lnk "/containers/c2".toList)]

/-! ## Basic facts -/

theorem Char_toNat_inj {x y : Char} (h : x.toNat = y.toNat) : x = y := by
  have h2 := congrArg Char.ofNat h
  simpa using h2

/-- For a NUL-free `a`, `strncmp(a, b, strlen(a)) == 0` says that `a` is an
initial segment of `b`. -/
theorem strncmp_strlen (a : CStr) (ha : ∀ c ∈ a, c ≠ Char.ofNat 0) :
    ∀ b : CStr, strncmp a b a.length = 0 ↔ a <+: b := by
  induction a with
  | nil => intro b; simp [strncmp]
  | cons x a ih =>
    intro b
    have hx : x ≠ Char.ofNat 0 := ha x (by simp)
    have ih2 := ih (fun c hc => ha c (by simp [hc]))
    cases b with
    | nil =>
      simp only [List.length_cons, strncmp]
      constructor
      · intro h
        exfalso; apply hx
        apply Char_toNat_inj
        have h0 : x.toNat = 0 := by exact_mod_cast h
        simpa using h0
      · intro h; simp at h
    | cons y b =>
      simp only [List.length_cons, strncmp]
      by_cases h : x = y
      · subst h; simp [ih2, List.cons_prefix_cons]
      · simp only [h, if_false, List.cons_prefix_cons, false_and, iff_false]
        intro h2
        apply h; apply Char_toNat_inj
        omega

/-- The verb chosen by `main`, in terms of initial segments. -/
theorem selectVerb_eq (cmd : CStr) (hc : ∀ c ∈ cmd, c ≠ Char.ofNat 0) :
    selectVerb cmd =
      if cmd <+: Verb.create.text then some Verb.create
      else if cmd <+: Verb.destroy.text then some Verb.destroy
      else if cmd <+: Verb.add.text then some Verb.add
      else if cmd <+: Verb.del.text then some Verb.del
      else none := by
  unfold selectVerb
  simp only [strncmp_strlen cmd hc]

theorem splitAux_noslash (n : CStr) (hn : '/' ∉ n) :
    ∀ cur : CStr, cur ++ n ≠ [] → splitAux cur n = [cur ++ n] := by
  induction n with
  | nil => intro cur h; simp at h; simp [splitAux, h]
  | cons c cs ih =>
    intro cur _
    have hc : c ≠ '/' := fun h => hn (by simp [h])
    have hcs : '/' ∉ cs := fun h => hn (by simp [h])
    simp only [splitAux, hc, if_false]
    rw [ih hcs (cur ++ [c]) (by simp)]
    simp

theorem splitAux_append_slash (a n : CStr) (hn : '/' ∉ n) (hne : n ≠ []) :
    ∀ cur : CStr, splitAux cur (a ++ '/' :: n) = splitAux cur a ++ [n] := by
  induction a with
  | nil =>
    intro cur
    have h := splitAux_noslash n hn [] (by simpa using hne)
    by_cases hc : cur = []
    · simp [splitAux, hc, h]
    · simp [splitAux, hc, h]
  | cons c cs ih =>
    intro cur
    by_cases hc : c = '/'
    · by_cases h2 : cur = []
      · simp [splitAux, hc, h2, ih]
      · simp [splitAux, hc, h2, ih]
    · simp [splitAux, hc, ih]

theorem comps_join2 (path n : CStr) (hn : ValidName n) :
    comps (join2 path n) = comps path ++ [n] := by
  unfold comps join2
  exact splitAux_append_slash path n hn.2.1 hn.1 []

theorem kindAt_filter (fs : Fs) (keep : Path → Bool) (q : Path) (hq : keep q = true) :
    kindAt (fs.filter (fun e => keep e.1)) q = kindAt fs q := by
  cases q with
  | nil => rfl
  | cons x xs =>
    simp only [kindAt]
    congr 1
    induction fs with
    | nil => rfl
    | cons e es ih =>
      by_cases he : e.1 = x :: xs
      · simp [List.filter_cons, List.find?_cons, he, hq]
      · by_cases hk : keep e.1 = true
        · simp [List.filter_cons, List.find?_cons, he, hk, ih]
        · simp [List.filter_cons, List.find?_cons, he, hk, ih]

theorem kindAt_filter_none (fs : Fs) (keep : Path → Bool) (q : Path) (hq : keep q = false)
    (hne : q ≠ []) : kindAt (fs.filter (fun e => keep e.1)) q = none := by
  cases q with
  | nil => exact absurd rfl hne
  | cons x xs =>
    simp only [kindAt, Option.map_eq_none', List.find?_eq_none, List.mem_filter]
    intro e he
    simp only [decide_eq_true_eq]
    intro h
    rw [h] at he
    simp [hq] at he

theorem walk1_dirs (fs : Fs) (follow : Bool) :
    ∀ (rest cur : Path) (tail : List CStr), (∀ n ∈ rest, ValidName n) →
      (∀ q, q <+: rest → kindAt fs (cur ++ q) = some Kind.dir) →
      walk1 fs follow cur (rest ++ tail) = walk1 fs follow (cur ++ rest) tail := by
  intro rest
  induction rest with
  | nil => intro cur tail _ _; simp
  | cons c rest ih =>
    intro cur tail hv hd
    have hc : ValidName c := hv c (by simp)
    have hk : kindAt fs (cur ++ [c]) = some Kind.dir :=
      hd [c] (by simp [List.cons_prefix_cons])
    have h1 := ih (cur ++ [c]) tail (fun n hn => hv n (by simp [hn]))
      (fun q hq => by
        have := hd (c :: q) (by simp [List.cons_prefix_cons, hq])
        simpa using this)
    have h2 : walk1 fs follow cur (c :: (rest ++ tail))
        = walk1 fs follow (cur ++ [c]) (rest ++ tail) := by
      simp only [walk1, hc.2.2.1, hc.2.2.2, if_false, hk]
    rw [List.cons_append, h2, h1]; simp

theorem walk1_last (fs : Fs) (follow : Bool) (cur : Path) (d : CStr) (hd : ValidName d)
    (h : follow = false ∨ ∀ t, kindAt fs (cur ++ [d]) ≠ some (Kind.lnk t)) :
    walk1 fs follow cur [d] = Step.done (cur ++ [d]) := by
  simp only [walk1, hd.2.2.1, hd.2.2.2, if_false]
  cases hk : kindAt fs (cur ++ [d]) with
  | none => simp
  | some k =>
    cases k with
    | reg => simp
    | dir => simp [walk1]
    | other => simp
    | lnk t =>
      rcases h with h | h
      · simp [h]
      · exact absurd hk (h t)

theorem namei_real (fs : Fs) (follow : Bool) (path : CStr) (p : Path)
    (hr : RealDir fs p) (hp : comps path = p) (hne : path ≠ []) :
    namei fs follow path = Except.ok p := by
  have h := walk1_dirs fs follow p [] [] hr.2 (fun q hq => by simpa using hr.1 q hq)
  simp only [List.append_nil, List.nil_append] at h
  simp [namei, hne, resolveFrom, MAXSYMLINKS, hp, h, walk1]

theorem namei_child (fs : Fs) (follow : Bool) (path d : CStr) (p : Path)
    (hr : RealDir fs p) (hp : comps path = p) (hd : ValidName d)
    (h : follow = false ∨ ∀ t, kindAt fs (p ++ [d]) ≠ some (Kind.lnk t)) :
    namei fs follow (join2 path d) = Except.ok (p ++ [d]) := by
  have h1 := walk1_dirs fs follow p [] [d] hr.2 (fun q hq => by simpa using hr.1 q hq)
  simp only [List.nil_append] at h1
  have hne : join2 path d ≠ [] := by simp [join2]
  simp [namei, hne, resolveFrom, MAXSYMLINKS, comps_join2 path d hd, hp, h1,
    walk1_last fs follow p d hd h]

theorem Shrink.refl (S : Path → Prop) (fs : Fs) : Shrink S fs fs :=
  ⟨fun _ => true, by simp, fun _ _ => rfl⟩

theorem Shrink.trans {S : Path → Prop} {a b c : Fs} (h1 : Shrink S a b) (h2 : Shrink S b c) :
    Shrink S a c := by
  obtain ⟨k1, e1, f1⟩ := h1
  obtain ⟨k2, e2, f2⟩ := h2
  refine ⟨fun q => k1 q && k2 q, ?_, fun q hq => by simp [f1 q hq, f2 q hq]⟩
  rw [e2, e1, List.filter_filter]
  congr 1
  funext e
  simp [Bool.and_comm]

theorem Shrink.mono {S T : Path → Prop} {a b : Fs} (h : Shrink S a b) (hst : ∀ q, S q → T q) :
    Shrink T a b := by
  obtain ⟨k, e, f⟩ := h
  exact ⟨k, e, fun q hq => f q (fun hs => hq (hst q hs))⟩

theorem Shrink_erase (S : Path → Prop) (fs : Fs) (p : Path) (hp : S p) :
    Shrink S fs (erase fs p) :=
  ⟨fun q => decide (q ≠ p), rfl, fun q hq => by
    simp only [decide_eq_true_eq]
    intro h; exact hq (h ▸ hp)⟩

theorem Shrink.kindAt_eq {S : Path → Prop} {a b : Fs} (h : Shrink S a b) (q : Path) (hq : ¬ S q) :
    kindAt b q = kindAt a q := by
  obtain ⟨k, e, f⟩ := h
  rw [e]
  exact kindAt_filter a k q (f q hq)

theorem Shrink.mem {S : Path → Prop} {a b : Fs} (h : Shrink S a b) {e : Path × Kind}
    (he : e ∈ b) : e ∈ a := by
  obtain ⟨k, e1, _⟩ := h
  rw [e1] at he
  exact (List.mem_filter.mp he).1

theorem Shrink.mem_of_not {S : Path → Prop} {a b : Fs} (h : Shrink S a b) {e : Path × Kind}
    (he : e ∈ a) (hs : ¬ S e.1) : e ∈ b := by
  obtain ⟨k, e1, f⟩ := h
  rw [e1]
  exact List.mem_filter.mpr ⟨he, f e.1 hs⟩

theorem Shrink.realDir {S : Path → Prop} {a b : Fs} (h : Shrink S a b) {p : Path}
    (hs : ∀ q, q <+: p → ¬ S q) (hr : RealDir a p) : RealDir b p :=
  ⟨fun q hq => by rw [h.kindAt_eq q (hs q hq)]; exact hr.1 q hq, hr.2⟩

theorem Shrink.namesOk {S : Path → Prop} {a b : Fs} (h : Shrink S a b) (hn : NamesOk a) :
    NamesOk b :=
  fun e he => hn e (h.mem he)

theorem RealDir.childDir {fs : Fs} {p : Path} (hr : RealDir fs p) {d : CStr} (hd : ValidName d)
    (hk : kindAt fs (p ++ [d]) = some Kind.dir) : RealDir fs (p ++ [d]) := by
  refine ⟨fun q hq => ?_, fun n hn => ?_⟩
  · rcases List.prefix_concat_iff.mp hq with h | h
    · rw [h]; exact hk
    · exact hr.1 q h
  · rcases List.mem_append.mp hn with h | h
    · exact hr.2 n h
    · simp at h; rw [h]; exact hd

theorem sys_lstat_child (fs : Fs) (path d : CStr) (p : Path)
    (hr : RealDir fs p) (hp : comps path = p) (hd : ValidName d) :
    sys_lstat fs (join2 path d) =
      match kindAt fs (p ++ [d]) with
      | none => Except.error Errno.ENOENT
      | some k => Except.ok k := by
  simp [sys_lstat, namei_child fs false path d p hr hp hd (Or.inl rfl)]

theorem sys_unlink_child (deny : Path → Bool) (fs : Fs) (path d : CStr) (p : Path)
    (hr : RealDir fs p) (hp : comps path = p) (hd : ValidName d) :
    sys_unlink deny fs (join2 path d) =
      match kindAt fs (p ++ [d]) with
      | none => Except.error Errno.ENOENT
      | some Kind.dir => Except.error Errno.EISDIR
      | some _ =>
        if deny (p ++ [d]) then Except.error Errno.EPERM else Except.ok (erase fs (p ++ [d])) := by
  simp [sys_unlink, namei_child fs false path d p hr hp hd (Or.inl rfl)]

theorem sys_opendir_real (fs : Fs) (path : CStr) (p : Path)
    (hr : RealDir fs p) (hp : comps path = p) (hne : path ≠ []) :
    sys_opendir fs path = Except.ok p := by
  simp [sys_opendir, namei_real fs true path p hr hp hne, hr.1 p (List.prefix_refl p)]

theorem sys_rmdir_real (deny : Path → Bool) (fs : Fs) (path : CStr) (p : Path)
    (hr : RealDir fs p) (hp : comps path = p) (hne : path ≠ []) (hp0 : p ≠ []) :
    sys_rmdir deny fs path =
      if isEmptyDir fs p = false then Except.error Errno.ENOTEMPTY
      else if deny p then Except.error Errno.EPERM
      else Except.ok (erase fs p) := by
  have hl : (comps path).getLast? ≠ some ['.'] := by
    rw [hp]
    intro h
    have hm : ['.'] ∈ p := List.mem_of_getLast?_eq_some h
    exact (hr.2 _ hm).2.2.1 rfl
  simp [sys_rmdir, hl, namei_real fs false path p hr hp hne, hr.1 p (List.prefix_refl p), hp0]

theorem not_child_le_of_le {p q : Path} (d : CStr) (hq : q <+: p) : ¬ (p ++ [d] <+: q) := by
  intro h
  have h1 := h.length_le
  have h2 := hq.length_le
  simp at h1
  omega

theorem below_of_child_le {p q : Path} {d : CStr} (h : p ++ [d] <+: q) : below p q = true := by
  have h1 : p <+: q := (List.prefix_append p [d]).trans h
  have h2 : q ≠ p := by
    intro e
    have := h.length_le
    simp [e] at this
  simp [below, h1, h2]

theorem not_below_of_le {p q : Path} (hq : q <+: p) : ¬ (below p q = true) := by
  intro h
  simp only [below, Bool.and_eq_true, decide_eq_true_eq] at h
  have h1 := h.1.length_le
  have h2 := hq.length_le
  exact h.2 (hq.eq_of_length (le_antisymm h2 h1))

theorem Shrink.other_kept {A : Path → Prop} {a b : Fs}
    (h : Shrink (fun q => A q ∧ kindAt a q ≠ some Kind.other) a b) (q : Path)
    (hq : kindAt b q ≠ some Kind.other) : kindAt a q ≠ some Kind.other := by
  intro hk
  apply hq
  rw [h.kindAt_eq q (fun hs => hs.2 hk)]
  exact hk

theorem rmdirsLoop_frame (self : World → CStr → Except Fault (World × Int))
    (hself : FrameSpec self) (deny : Path → Bool) (path : CStr) (stop : Bool) (p : Path)
    (hp : comps path = p) :
    ∀ (ds : List CStr) (w w1 : World) (res : Option Int), (∀ d ∈ ds, ValidName d) →
      RealDir w.fs p → NamesOk w.fs →
      rmdirsLoop self deny path stop w ds = Except.ok (w1, res) →
      Shrink (fun q => below p q = true ∧ kindAt w.fs q ≠ some Kind.other) w.fs w1.fs ∧
        (∀ r, res = some r → r = -1) := by
  intro ds
  induction ds with
  | nil =>
    intro w w1 res _ _ _ h
    simp only [rmdirsLoop, Except.ok.injEq, Prod.mk.injEq] at h
    rw [← h.1, ← h.2]
    exact ⟨Shrink.refl _ _, by simp⟩
  | cons d ds ih =>
    intro w w1 res hv hr hn h
    have hd : ValidName d := hv d (by simp)
    have hv2 : ∀ d ∈ ds, ValidName d := fun x hx => hv x (by simp [hx])
    rw [rmdirsLoop] at h
    simp only [hd.2.2.1, hd.2.2.2, or_self, if_false] at h
    split at h
    · exact absurd h (by simp)
    · rw [sys_lstat_child w.fs path d p hr hp hd] at h
      cases hk : kindAt w.fs (p ++ [d]) with
      | none =>
        simp only [hk] at h
        exact ih { fs := w.fs, errno := some Errno.ENOENT } w1 res hv2 hr hn h
      | some k =>
        cases k with
        | dir =>
          simp only [hk] at h
          cases hs : self w (join2 path d) with
          | error f => simp [hs] at h
          | ok x =>
            obtain ⟨w2, r⟩ := x
            simp only [hs] at h
            have hf := hself w (join2 path d) (p ++ [d]) w2 r (hr.childDir hd hk)
              (by rw [comps_join2 path d hd, hp]) (by simp [join2]) (by simp) hn hs
            have hsh : Shrink (fun q => below p q = true ∧ kindAt w.fs q ≠ some Kind.other)
                w.fs w2.fs :=
              hf.1.mono (fun q hq => ⟨below_of_child_le hq.1, hq.2⟩)
            split at h
            · simp only [Except.ok.injEq, Prod.mk.injEq] at h
              rw [← h.1, ← h.2]
              exact ⟨hsh, by simp⟩
            · have h3 := ih w2 w1 res hv2
                (hsh.realDir (fun q hq hs => not_below_of_le hq hs.1) hr) (hsh.namesOk hn) h
              exact ⟨hsh.trans (h3.1.mono (fun q hq => ⟨hq.1, hsh.other_kept q hq.2⟩)), h3.2⟩
        | other =>
          simp only [hk] at h
          exact ih w w1 res hv2 hr hn h
        | reg =>
          simp only [hk, sys_unlink_child deny w.fs path d p hr hp hd] at h
          have hsh : Shrink (fun q => below p q = true ∧ kindAt w.fs q ≠ some Kind.other)
              w.fs (erase w.fs (p ++ [d])) :=
            Shrink_erase _ _ _ ⟨below_of_child_le (List.prefix_refl _), by simp [hk]⟩
          by_cases hdn : deny (p ++ [d]) = true
          · simp only [hdn, if_true, World.call] at h
            split at h
            · simp only [Except.ok.injEq, Prod.mk.injEq] at h
              rw [← h.1, ← h.2]
              exact ⟨Shrink.refl _ _, by simp⟩
            · exact ih { fs := w.fs, errno := some Errno.EPERM } w1 res hv2 hr hn h
          · simp only [hdn, World.call] at h
            simp at h
            have h3 := ih { fs := erase w.fs (p ++ [d]), errno := w.errno } w1 res hv2
                (hsh.realDir (fun q hq hs => not_below_of_le hq hs.1) hr) (hsh.namesOk hn) h
            exact ⟨hsh.trans (h3.1.mono (fun q hq => ⟨hq.1, hsh.other_kept q hq.2⟩)), h3.2⟩
        | lnk t =>
          simp only [hk, sys_unlink_child deny w.fs path d p hr hp hd] at h
          have hsh : Shrink (fun q => below p q = true ∧ kindAt w.fs q ≠ some Kind.other)
              w.fs (erase w.fs (p ++ [d])) :=
            Shrink_erase _ _ _ ⟨below_of_child_le (List.prefix_refl _), by simp [hk]⟩
          by_cases hdn : deny (p ++ [d]) = true
          · simp only [hdn, if_true, World.call] at h
            split at h
            · simp only [Except.ok.injEq, Prod.mk.injEq] at h
              rw [← h.1, ← h.2]
              exact ⟨Shrink.refl _ _, by simp⟩
            · exact ih { fs := w.fs, errno := some Errno.EPERM } w1 res hv2 hr hn h
          · simp only [hdn, World.call] at h
            simp at h
            have h3 := ih { fs := erase w.fs (p ++ [d]), errno := w.errno } w1 res hv2
                (hsh.realDir (fun q hq hs => not_below_of_le hq hs.1) hr) (hsh.namesOk hn) h
            exact ⟨hsh.trans (h3.1.mono (fun q hq => ⟨hq.1, hsh.other_kept q hq.2⟩)), h3.2⟩

theorem childNames_valid (fs : Fs) (hn : NamesOk fs) (p : Path) :
    ∀ d ∈ childNames fs p, ValidName d := by
  intro d hd
  simp only [childNames, List.mem_filterMap] at hd
  obtain ⟨e, he, h⟩ := hd
  cases hl : e.1.getLast? with
  | none => simp [hl] at h
  | some n =>
    simp only [hl] at h
    split at h
    · simp only [Option.some.injEq] at h
      rw [← h]
      exact hn e he n (List.mem_of_getLast?_eq_some hl)
    · simp at h

theorem rmdirs_frame (deny : Path → Bool) (stop : Bool) :
    ∀ fuel : Nat, FrameSpec (rmdirs deny stop fuel) := by
  intro fuel
  induction fuel with
  | zero => intro w path p w1 r _ _ _ _ _ h; simp [rmdirs] at h
  | succ k ih =>
    intro w path p w1 r hr hp hne hp0 hn h
    rw [rmdirs, sys_opendir_real w.fs path p hr hp hne] at h
    simp only at h
    cases hl : rmdirsLoop (rmdirs deny stop k) deny path stop w (childNames w.fs p) with
    | error f => simp [hl] at h
    | ok x =>
      obtain ⟨w2, res⟩ := x
      have hf := rmdirsLoop_frame (rmdirs deny stop k) ih deny path stop p hp
        (childNames w.fs p) w w2 res (childNames_valid w.fs hn p) hr hn hl
      have hsh : Shrink (fun q => p <+: q ∧ kindAt w.fs q ≠ some Kind.other) w.fs w2.fs :=
        hf.1.mono (fun q hq => by
          have h1 := hq.1
          simp only [below, Bool.and_eq_true, decide_eq_true_eq] at h1
          exact ⟨h1.1, hq.2⟩)
      have hr2 : RealDir w2.fs p :=
        hf.1.realDir (fun q hq hs => not_below_of_le hq hs.1) hr
      simp only [hl] at h
      cases res with
      | some r2 =>
        simp only [Except.ok.injEq, Prod.mk.injEq] at h
        rw [← h.1, ← h.2]
        have hr1 : r2 = -1 := hf.2 r2 rfl
        refine ⟨hsh, fun h0 => by omega, fun _ => hr2.1 p (List.prefix_refl p)⟩
      | none =>
        simp only [sys_rmdir_real deny w2.fs path p hr2 hp hne hp0] at h
        cases hem : isEmptyDir w2.fs p with
        | false =>
          simp only [hem, if_true, World.call, Except.ok.injEq, Prod.mk.injEq] at h
          rw [← h.1, ← h.2]
          exact ⟨hsh, fun h0 => by omega, fun _ => hr2.1 p (List.prefix_refl p)⟩
        | true =>
          cases hdn : deny p with
          | true =>
            simp [hem, hdn, World.call] at h
            rw [← h.1, ← h.2]
            exact ⟨hsh, fun h0 => by omega, fun _ => hr2.1 p (List.prefix_refl p)⟩
          | false =>
            simp [hem, hdn, World.call] at h
            rw [← h.1, ← h.2]
            refine ⟨hsh.trans (Shrink_erase _ _ _ ⟨List.prefix_refl p, by
                simp [hr.1 p (List.prefix_refl p)]⟩), fun _ e he => ?_,
              fun h0 => absurd rfl h0⟩
            simp only [erase, List.mem_filter, decide_eq_true_eq] at he
            simp only [isEmptyDir, List.all_eq_true] at hem
            have h5 := hem e he.1
            simp only [below, Bool.not_eq_true', Bool.and_eq_false_iff, decide_eq_false_iff_not,
              ne_eq, not_not] at h5
            rcases h5 with h5 | h5
            · exact h5
            · exact absurd h5 he.2

theorem kindAt_mem {fs : Fs} {q : Path} {k : Kind} (h : kindAt fs q = some k) (hq : q ≠ []) :
    (q, k) ∈ fs := by
  cases q with
  | nil => exact absurd rfl hq
  | cons x xs =>
    simp only [kindAt, Option.map_eq_some'] at h
    obtain ⟨e, he, hk⟩ := h
    have h1 := List.find?_some he
    have h2 := List.mem_of_find?_eq_some he
    simp only [decide_eq_true_eq] at h1
    have : e = (x :: xs, k) := Prod.ext h1 hk
    rw [← this]; exact h2

theorem kindAt_isSome_of_mem {fs : Fs} {e : Path × Kind} (he : e ∈ fs) (hq : e.1 ≠ []) :
    ∃ k, kindAt fs e.1 = some k := by
  cases hp : e.1 with
  | nil => exact absurd hp hq
  | cons x xs =>
    cases hf : fs.find? (fun a => decide (a.1 = x :: xs)) with
    | none =>
      have := List.find?_eq_none.mp hf e he
      simp [hp] at this
    | some a => exact ⟨a.2, by simp [kindAt, hf]⟩

theorem Fits.fitsChild {fs : Fs} {p : Path} {path : CStr} (h : Fits fs p path) (d : CStr) :
    Fits fs (p ++ [d]) (join2 path d) := by
  intro e he rest hr hne
  have h1 := h e he (d :: rest) (by simp [hr]) (by simp)
  simp only [pathLen, List.map_cons, List.sum_cons] at h1
  simp only [join2, List.length_append, List.length_cons, pathLen]
  omega

theorem Shallow.shallowChild {fs : Fs} {p : Path} {k : Nat} (h : Shallow fs p (k + 1)) (d : CStr) :
    Shallow fs (p ++ [d]) k := by
  intro e he rest hr
  have h1 := h e he (d :: rest) (by simp [hr])
  simp only [List.length_cons] at h1
  omega

theorem Fits.fitsShrink {S : Path → Prop} {a b : Fs} {p : Path} {path : CStr} (h : Fits a p path)
    (hs : Shrink S a b) : Fits b p path :=
  fun e he => h e (hs.mem he)

theorem Shallow.shallowShrink {S : Path → Prop} {a b : Fs} {p : Path} {k : Nat} (h : Shallow a p k)
    (hs : Shrink S a b) : Shallow b p k :=
  fun e he => h e (hs.mem he)

theorem CleanAt.cleanChild {deny : Path → Bool} {fs : Fs} {p : Path} (h : CleanAt deny fs p)
    (d : CStr) : CleanAt deny fs (p ++ [d]) := by
  intro e he hpre
  have hp : p <+: e.1 := (List.prefix_append p [d]).trans hpre
  obtain ⟨h1, h2, h3⟩ := h e he hp
  refine ⟨h1, fun hne => h2 ?_, fun q hq1 hq2 hq3 => h3 q ((List.prefix_append p [d]).trans hq1) hq2 hq3⟩
  intro heq
  have := hpre.length_le
  simp [heq] at this

theorem CleanAt.step {deny : Path → Bool} {a b : Fs} {p : Path} {d : CStr}
    (h : CleanAt deny a p) (hs : Shrink (fun q => p ++ [d] <+: q) a b)
    (hgone : ∀ e ∈ b, ¬ p ++ [d] <+: e.1) : CleanAt deny b p := by
  intro e he hpre
  obtain ⟨h1, h2, h3⟩ := h e (hs.mem he) hpre
  refine ⟨h1, h2, fun q hq1 hq2 hq3 => ?_⟩
  rw [hs.kindAt_eq q (fun hq => hgone e he (hq.trans hq2))]
  exact h3 q hq1 hq2 hq3

/-- In a subtree that can be removed entirely, nothing lies at or below a name
that is missing or is not a directory. -/
theorem CleanAt.leaf {deny : Path → Bool} {fs : Fs} {p : Path} {d : CStr}
    (h : CleanAt deny fs p) (hk : kindAt fs (p ++ [d]) ≠ some Kind.dir) :
    ∀ e ∈ fs, p ++ [d] <+: e.1 → e.1 = p ++ [d] := by
  intro e he hpre
  by_contra hne
  exact hk ((h e he ((List.prefix_append p [d]).trans hpre)).2.2 (p ++ [d])
    (List.prefix_append p [d]) hpre (fun h2 => hne h2.symm))

theorem rmdirsLoop_step (deny : Path → Bool) (stop : Bool) (k : Nat) (path : CStr) (p : Path)
    (hp : comps path = p) (ih : ProgSpec deny k (rmdirs deny stop k))
    (d : CStr) (ds : List CStr) (w : World) (hd : ValidName d)
    (hr : RealDir w.fs p) (hn : NamesOk w.fs) (hf : Fits w.fs p path)
    (hs : Shallow w.fs p (k + 1)) (hlen : path.length + d.length + 2 ≤ 1024) :
    ∃ w2 : World, Shrink (fun q => p ++ [d] <+: q) w.fs w2.fs ∧
      (rmdirsLoop (rmdirs deny stop k) deny path stop w (d :: ds)
          = rmdirsLoop (rmdirs deny stop k) deny path stop w2 ds ∨
        (¬ CleanAt deny w.fs p ∧
          rmdirsLoop (rmdirs deny stop k) deny path stop w (d :: ds)
            = Except.ok (w2, some (-1)))) ∧
      (CleanAt deny w.fs p → ∀ e ∈ w2.fs, ¬ p ++ [d] <+: e.1) := by
  have hlen2 : ¬ (path.length + d.length + 2 > 1024) := by omega
  have hunf : rmdirsLoop (rmdirs deny stop k) deny path stop w (d :: ds) =
      match sys_lstat w.fs (join2 path d) with
      | Except.error e =>
        rmdirsLoop (rmdirs deny stop k) deny path stop { w with errno := some e } ds
      | Except.ok Kind.dir =>
        match rmdirs deny stop k w (join2 path d) with
        | Except.error f => Except.error f
        | Except.ok (w1, r) =>
          if r = -1 ∧ stop = true then Except.ok (w1, some (-1))
          else rmdirsLoop (rmdirs deny stop k) deny path stop w1 ds
      | Except.ok Kind.other => rmdirsLoop (rmdirs deny stop k) deny path stop w ds
      | Except.ok _ =>
        let st := w.call (sys_unlink deny w.fs (join2 path d))
        if st.2 = -1 ∧ stop = true then Except.ok (st.1, some (-1))
        else rmdirsLoop (rmdirs deny stop k) deny path stop st.1 ds := by
    rw [rmdirsLoop]
    simp only [hd.2.2.1, hd.2.2.2, or_self, if_false, hlen2]
  rw [hunf, sys_lstat_child w.fs path d p hr hp hd]
  cases hk : kindAt w.fs (p ++ [d]) with
  | none =>
    refine ⟨{ w with errno := some Errno.ENOENT }, Shrink.refl _ _, Or.inl rfl, ?_⟩
    intro hc e he hpre
    have h1 := hc.leaf (by simp [hk]) e he hpre
    obtain ⟨k2, hk2⟩ := kindAt_isSome_of_mem he (by simp [h1])
    rw [h1, hk] at hk2
    exact absurd hk2 (by simp)
  | some kd =>
    cases kd with
    | dir =>
      obtain ⟨w2, r, hs2, hclean⟩ := ih w (join2 path d) (p ++ [d]) (hr.childDir hd hk)
        (by rw [comps_join2 path d hd, hp]) (by simp [join2]) (by simp) hn (hf.fitsChild d)
        (hs.shallowChild d)
      have hfr := rmdirs_frame deny stop k w (join2 path d) (p ++ [d]) w2 r (hr.childDir hd hk)
        (by rw [comps_join2 path d hd, hp]) (by simp [join2]) (by simp) hn hs2
      refine ⟨w2, hfr.1.mono (fun q hq => hq.1), ?_, fun hc => hfr.2.1 (hclean (hc.cleanChild d))⟩
      simp only [hs2]
      by_cases hst : r = -1 ∧ stop = true
      · refine Or.inr ⟨fun hc => ?_, by simp [hst]⟩
        have := hclean (hc.cleanChild d)
        omega
      · exact Or.inl (by simp [hst])
    | other =>
      refine ⟨w, Shrink.refl _ _, Or.inl rfl, ?_⟩
      intro hc
      have hm := kindAt_mem hk (by simp)
      exact absurd rfl ((hc _ hm (List.prefix_append p [d])).2.1 (by simp))
    | reg =>
      have hm := kindAt_mem hk (by simp)
      simp only [sys_unlink_child deny w.fs path d p hr hp hd, hk]
      cases hdn : deny (p ++ [d]) with
      | true =>
        have hnc : ¬ CleanAt deny w.fs p := fun hc => by
          have := (hc _ hm (List.prefix_append p [d])).1
          simp [hdn] at this
        refine ⟨{ w with errno := some Errno.EPERM }, Shrink.refl _ _, ?_,
          fun hc => absurd hc hnc⟩
        cases stop with
        | true => exact Or.inr ⟨hnc, by simp [World.call]⟩
        | false => exact Or.inl (by simp [World.call])
      | false =>
        refine ⟨{ w with fs := erase w.fs (p ++ [d]) },
          Shrink_erase _ _ _ (List.prefix_refl _), Or.inl (by simp [World.call]), ?_⟩
        intro hc e he hpre
        simp only [erase, List.mem_filter, decide_eq_true_eq] at he
        exact he.2 (hc.leaf (by simp [hk]) e he.1 hpre)
    | lnk t =>
      have hm := kindAt_mem hk (by simp)
      simp only [sys_unlink_child deny w.fs path d p hr hp hd, hk]
      cases hdn : deny (p ++ [d]) with
      | true =>
        have hnc : ¬ CleanAt deny w.fs p := fun hc => by
          have := (hc _ hm (List.prefix_append p [d])).1
          simp [hdn] at this
        refine ⟨{ w with errno := some Errno.EPERM }, Shrink.refl _ _, ?_,
          fun hc => absurd hc hnc⟩
        cases stop with
        | true => exact Or.inr ⟨hnc, by simp [World.call]⟩
        | false => exact Or.inl (by simp [World.call])
      | false =>
        refine ⟨{ w with fs := erase w.fs (p ++ [d]) },
          Shrink_erase _ _ _ (List.prefix_refl _), Or.inl (by simp [World.call]), ?_⟩
        intro hc e he hpre
        simp only [erase, List.mem_filter, decide_eq_true_eq] at he
        exact he.2 (hc.leaf (by simp [hk]) e he.1 hpre)

theorem mem_childNames (fs : Fs) (p : Path) (d : CStr) :
    d ∈ childNames fs p ↔ ∃ e ∈ fs, e.1 = p ++ [d] := by
  simp only [childNames, List.mem_filterMap]
  constructor
  · rintro ⟨e, he, h⟩
    refine ⟨e, he, ?_⟩
    cases hl : e.1.getLast? with
    | none => simp [hl] at h
    | some n =>
      simp only [hl] at h
      split at h
      · rename_i hdl
        simp only [Option.some.injEq] at h
        have := List.dropLast_append_getLast? n hl
        rw [← this, hdl, h]
      · simp at h
  · rintro ⟨e, he, h⟩
    exact ⟨e, he, by simp [h]⟩

theorem rmdirsLoop_prog (deny : Path → Bool) (stop : Bool) (k : Nat) (path : CStr) (p : Path)
    (hp : comps path = p) (ih : ProgSpec deny k (rmdirs deny stop k)) :
    ∀ (ds : List CStr) (w : World), (∀ d ∈ ds, ValidName d) → RealDir w.fs p → NamesOk w.fs →
      Fits w.fs p path → Shallow w.fs p (k + 1) →
      (∀ d ∈ ds, path.length + d.length + 2 ≤ 1024) →
      ∃ w1 res, rmdirsLoop (rmdirs deny stop k) deny path stop w ds = Except.ok (w1, res) ∧
        Shrink (fun q => below p q = true) w.fs w1.fs ∧
        (CleanAt deny w.fs p → res = none ∧ ∀ e ∈ w1.fs, ∀ d ∈ ds, ¬ p ++ [d] <+: e.1) := by
  intro ds
  induction ds with
  | nil =>
    intro w _ _ _ _ _ _
    exact ⟨w, none, by simp [rmdirsLoop], Shrink.refl _ _, fun _ => ⟨rfl, by simp⟩⟩
  | cons d ds ihd =>
    intro w hv hr hn hf hs hl
    obtain ⟨w2, hsh, hcase, hgone⟩ := rmdirsLoop_step deny stop k path p hp ih d ds w
      (hv d (by simp)) hr hn hf hs (hl d (by simp))
    have hsh2 : Shrink (fun q => below p q = true) w.fs w2.fs :=
      hsh.mono (fun q hq => below_of_child_le hq)
    rcases hcase with hc | ⟨hnc, hc⟩
    · obtain ⟨w1, res, h1, h2, h3⟩ := ihd w2 (fun x hx => hv x (by simp [hx]))
        (hsh2.realDir (fun q hq => not_below_of_le hq) hr) (hsh.namesOk hn)
        (hf.fitsShrink hsh) (hs.shallowShrink hsh) (fun x hx => hl x (by simp [hx]))
      refine ⟨w1, res, by rw [hc, h1], hsh2.trans h2, fun hcl => ?_⟩
      have h4 := h3 (hcl.step hsh (hgone hcl))
      refine ⟨h4.1, fun e he x hx => ?_⟩
      rcases List.mem_cons.mp hx with hx | hx
      · rw [hx]; exact hgone hcl e (h2.mem he)
      · exact h4.2 e he x hx
    · exact ⟨w2, some (-1), hc, hsh2, fun hcl => absurd hcl hnc⟩

theorem rmdirs_prog (deny : Path → Bool) (stop : Bool) :
    ∀ k : Nat, ProgSpec deny k (rmdirs deny stop k) := by
  intro k
  induction k with
  | zero =>
    intro w path p hr _ _ hp0 _ _ hs
    have hm := kindAt_mem (hr.1 p (List.prefix_refl p)) hp0
    have := hs _ hm [] (by simp)
    simp at this
  | succ k ih =>
    intro w path p hr hp hne hp0 hn hf hs
    have hlen : ∀ d ∈ childNames w.fs p, path.length + d.length + 2 ≤ 1024 := by
      intro d hd
      obtain ⟨e, he, h⟩ := (mem_childNames w.fs p d).mp hd
      have := hf e he [d] h (by simp)
      simp only [pathLen, List.map_cons, List.map_nil, List.sum_cons, List.sum_nil] at this
      omega
    obtain ⟨w1, res, h1, h2, h3⟩ := rmdirsLoop_prog deny stop k path p hp ih
      (childNames w.fs p) w (childNames_valid w.fs hn p) hr hn hf hs hlen
    have hr1 : RealDir w1.fs p := h2.realDir (fun q hq => not_below_of_le hq) hr
    rw [rmdirs, sys_opendir_real w.fs path p hr hp hne]
    simp only [h1]
    cases res with
    | some r => exact ⟨w1, r, rfl, fun hc => by simpa using (h3 hc).1⟩
    | none =>
      refine ⟨_, _, rfl, fun hc => ?_⟩
      have hem : isEmptyDir w1.fs p = true := by
        simp only [isEmptyDir, List.all_eq_true, Bool.not_eq_true']
        intro e he
        by_contra hb
        have hb2 : below p e.1 = true := by simpa using hb
        simp only [below, Bool.and_eq_true, decide_eq_true_eq] at hb2
        obtain ⟨rest, hrest⟩ := hb2.1
        cases rest with
        | nil => exact hb2.2 (by simpa using hrest.symm)
        | cons d rest =>
          have hpre : p ++ [d] <+: e.1 := ⟨rest, by simp [← hrest]⟩
          have hex : ∃ e2 ∈ w.fs, e2.1 = p ++ [d] := by
            by_cases hrn : rest = []
            · exact ⟨e, h2.mem he, by simp [← hrest, hrn]⟩
            · have hk := (hc e (h2.mem he) hb2.1).2.2 (p ++ [d]) (List.prefix_append p [d]) hpre
                (by
                  intro heq
                  rw [← hrest] at heq
                  simp at heq
                  exact hrn heq)
              exact ⟨_, kindAt_mem hk (by simp), rfl⟩
          exact (h3 hc).2 e he d ((mem_childNames w.fs p d).mpr hex) hpre
      have hdn : deny p = false :=
        (hc _ (kindAt_mem (hr.1 p (List.prefix_refl p)) hp0) (List.prefix_refl p)).1
      simp [sys_rmdir_real deny w1.fs path p hr1 hp hne hp0, hem, hdn, World.call]

theorem CleanAt.only_self {deny : Path → Bool} {fs : Fs} {q : Path}
    (h : CleanAt deny fs q) (hk : kindAt fs q ≠ some Kind.dir) :
    ∀ e ∈ fs, q <+: e.1 → e.1 = q := by
  intro e he hpre
  by_contra hne
  exact hk ((h e he hpre).2.2 q (List.prefix_refl q) hpre (fun h2 => hne h2.symm))

theorem CleanAt.nothing {deny : Path → Bool} {fs : Fs} {q : Path}
    (h : CleanAt deny fs q) (hk : kindAt fs q = none) :
    ∀ e ∈ fs, ¬ q <+: e.1 := by
  intro e he hpre
  have h1 := h.only_self (by simp [hk]) e he hpre
  have hq0 : e.1 ≠ [] := by
    intro h0
    rw [h1] at h0
    rw [h0] at hk
    simp [kindAt] at hk
  obtain ⟨k, hk2⟩ := kindAt_isSome_of_mem he hq0
  rw [h1, hk] at hk2
  cases hk2

theorem Removable.child_eq {deny : Path → Bool} {fs : Fs} {p q : Path} {d : CStr}
    (h : Removable deny fs p q) (hpre : p ++ [d] <+: q)
    (hk : kindAt fs (p ++ [d]) ≠ some Kind.dir) : q = p ++ [d] := by
  by_contra hne
  exact hk (h.2.1 (p ++ [d]) (List.prefix_append p [d]) hpre (fun h2 => hne h2.symm))

theorem Removable.down {deny : Path → Bool} {fs : Fs} {p q : Path} {d : CStr}
    (h : Removable deny fs p q) (hpre : p ++ [d] <+: q) : Removable deny fs (p ++ [d]) q :=
  ⟨hpre, fun r hr1 hr2 hr3 => h.2.1 r ((List.prefix_append p [d]).trans hr1) hr2 hr3,
    h.2.2.1, h.2.2.2⟩

theorem Removable.of_clean {deny : Path → Bool} {fs : Fs} {p : Path}
    (hk : kindAt fs p = some Kind.dir) (h : CleanAt deny fs p) : Removable deny fs p p :=
  ⟨List.prefix_refl p, fun r hr1 hr2 hr3 => absurd (hr2.eq_of_length
      (le_antisymm hr2.length_le hr1.length_le)) hr3, by simp [hk], h⟩

theorem child_le_of_both {p q r : Path} {d : CStr} (hpq : p <+: q) (hne : q ≠ p)
    (hqr : q <+: r) (hdr : p ++ [d] <+: r) : p ++ [d] <+: q := by
  apply List.prefix_of_prefix_length_le hdr hqr
  have h1 := hpq.length_le
  have h2 : q.length ≠ p.length := fun h => hne (hpq.eq_of_length h.symm).symm
  simp
  omega

theorem Removable.keep {deny : Path → Bool} {a b : Fs} {p q : Path} {d : CStr}
    (h : Removable deny a p q) (hs : Shrink (fun r => p ++ [d] <+: r) a b)
    (hq : ¬ p ++ [d] <+: q) (hqp : q ≠ p) : Removable deny b p q := by
  obtain ⟨h1, h2, h3, h4⟩ := h
  refine ⟨h1, fun r hr1 hr2 hr3 => ?_, ?_, ?_⟩
  · rw [hs.kindAt_eq r (fun hr => hq (hr.trans hr2))]
    exact h2 r hr1 hr2 hr3
  · rw [hs.kindAt_eq q hq]; exact h3
  · intro e he hpre
    obtain ⟨c1, c2, c3⟩ := h4 e (hs.mem he) hpre
    refine ⟨c1, c2, fun r hr1 hr2 hr3 => ?_⟩
    rw [hs.kindAt_eq r (fun hr => ?_)]
    · exact c3 r hr1 hr2 hr3
    · exact hq (child_le_of_both h1 hqp hr1 hr)


theorem rmdirsLoop_step_be (deny : Path → Bool) (k : Nat) (path : CStr) (p : Path)
    (hp : comps path = p) (ih : BestEffortSpec deny k (rmdirs deny false k))
    (d : CStr) (ds : List CStr) (w : World) (hd : ValidName d)
    (hr : RealDir w.fs p) (hn : NamesOk w.fs) (hf : Fits w.fs p path)
    (hs : Shallow w.fs p (k + 1)) (hlen : path.length + d.length + 2 ≤ 1024) :
    ∃ w2 : World, Shrink (fun q => p ++ [d] <+: q) w.fs w2.fs ∧
      rmdirsLoop (rmdirs deny false k) deny path false w (d :: ds)
        = rmdirsLoop (rmdirs deny false k) deny path false w2 ds ∧
      (∀ q, Removable deny w.fs p q → p ++ [d] <+: q → ∀ e ∈ w2.fs, ¬ q <+: e.1) := by
  have hlen2 : ¬ (path.length + d.length + 2 > 1024) := by omega
  have hunf : rmdirsLoop (rmdirs deny false k) deny path false w (d :: ds) =
      match sys_lstat w.fs (join2 path d) with
      | Except.error e =>
        rmdirsLoop (rmdirs deny false k) deny path false { w with errno := some e } ds
      | Except.ok Kind.dir =>
        match rmdirs deny false k w (join2 path d) with
        | Except.error f => Except.error f
        | Except.ok (w1, _) => rmdirsLoop (rmdirs deny false k) deny path false w1 ds
      | Except.ok Kind.other => rmdirsLoop (rmdirs deny false k) deny path false w ds
      | Except.ok _ =>
        rmdirsLoop (rmdirs deny false k) deny path false
          (w.call (sys_unlink deny w.fs (join2 path d))).1 ds := by
    rw [rmdirsLoop]
    simp only [hd.2.2.1, hd.2.2.2, or_self, if_false, hlen2, Bool.false_eq_true, and_false]
  rw [hunf, sys_lstat_child w.fs path d p hr hp hd]
  cases hk : kindAt w.fs (p ++ [d]) with
  | none =>
    refine ⟨{ w with errno := some Errno.ENOENT }, Shrink.refl _ _, rfl, ?_⟩
    intro q hq hpre
    have hqe := hq.child_eq hpre (by simp [hk])
    rw [hqe]
    exact CleanAt.nothing (hqe ▸ hq.2.2.2) hk
  | some kd =>
    cases kd with
    | dir =>
      obtain ⟨w2, r, hs2, hbe⟩ := ih w (join2 path d) (p ++ [d]) (hr.childDir hd hk)
        (by rw [comps_join2 path d hd, hp]) (by simp [join2]) (by simp) hn (hf.fitsChild d)
        (hs.shallowChild d)
      have hfr := rmdirs_frame deny false k w (join2 path d) (p ++ [d]) w2 r
        (hr.childDir hd hk) (by rw [comps_join2 path d hd, hp]) (by simp [join2]) (by simp)
        hn hs2
      exact ⟨w2, hfr.1.mono (fun q hq => hq.1), by simp only [hs2],
        fun q hq hpre => hbe q (hq.down hpre)⟩
    | other =>
      refine ⟨w, Shrink.refl _ _, rfl, ?_⟩
      intro q hq hpre
      have hqe := hq.child_eq hpre (by simp [hk])
      exact absurd (hqe ▸ hk) hq.2.2.1
    | reg =>
      have hm := kindAt_mem hk (by simp)
      simp only [sys_unlink_child deny w.fs path d p hr hp hd, hk]
      cases hdn : deny (p ++ [d]) with
      | true =>
        refine ⟨{ w with errno := some Errno.EPERM }, Shrink.refl _ _, by simp [World.call], ?_⟩
        intro q hq hpre
        have hqe := hq.child_eq hpre (by simp [hk])
        have hcl := (hq.2.2.2 _ hm (hqe ▸ List.prefix_refl _)).1
        simp [hdn] at hcl
      | false =>
        refine ⟨{ w with fs := erase w.fs (p ++ [d]) },
          Shrink_erase _ _ _ (List.prefix_refl _), by simp [World.call], ?_⟩
        intro q hq hpre e he hqpre
        have hqe := hq.child_eq hpre (by simp [hk])
        simp only [erase, List.mem_filter, decide_eq_true_eq] at he
        have hcl : CleanAt deny w.fs (p ++ [d]) := hqe ▸ hq.2.2.2
        exact he.2 (hcl.only_self (by simp [hk]) e he.1 (hqe ▸ hqpre))
    | lnk t =>
      have hm := kindAt_mem hk (by simp)
      simp only [sys_unlink_child deny w.fs path d p hr hp hd, hk]
      cases hdn : deny (p ++ [d]) with
      | true =>
        refine ⟨{ w with errno := some Errno.EPERM }, Shrink.refl _ _, by simp [World.call], ?_⟩
        intro q hq hpre
        have hqe := hq.child_eq hpre (by simp [hk])
        have hcl := (hq.2.2.2 _ hm (hqe ▸ List.prefix_refl _)).1
        simp [hdn] at hcl
      | false =>
        refine ⟨{ w with fs := erase w.fs (p ++ [d]) },
          Shrink_erase _ _ _ (List.prefix_refl _), by simp [World.call], ?_⟩
        intro q hq hpre e he hqpre
        have hqe := hq.child_eq hpre (by simp [hk])
        simp only [erase, List.mem_filter, decide_eq_true_eq] at he
        have hcl : CleanAt deny w.fs (p ++ [d]) := hqe ▸ hq.2.2.2
        exact he.2 (hcl.only_self (by simp [hk]) e he.1 (hqe ▸ hqpre))

theorem rmdirsLoop_be (deny : Path → Bool) (k : Nat) (path : CStr) (p : Path)
    (hp : comps path = p) (ih : BestEffortSpec deny k (rmdirs deny false k)) :
    ∀ (ds : List CStr) (w : World), (∀ d ∈ ds, ValidName d) → RealDir w.fs p → NamesOk w.fs →
      Fits w.fs p path → Shallow w.fs p (k + 1) →
      (∀ d ∈ ds, path.length + d.length + 2 ≤ 1024) →
      ∃ w1, rmdirsLoop (rmdirs deny false k) deny path false w ds = Except.ok (w1, none) ∧
        Shrink (fun q => below p q = true) w.fs w1.fs ∧
        ∀ q, Removable deny w.fs p q → (∃ d ∈ ds, p ++ [d] <+: q) →
          ∀ e ∈ w1.fs, ¬ q <+: e.1 := by
  intro ds
  induction ds with
  | nil =>
    intro w _ _ _ _ _ _
    exact ⟨w, by simp [rmdirsLoop], Shrink.refl _ _, fun q _ h => by simp at h⟩
  | cons d ds ihd =>
    intro w hv hr hn hf hs hl
    obtain ⟨w2, hsh, hloop, hgone⟩ := rmdirsLoop_step_be deny k path p hp ih d ds w
      (hv d (by simp)) hr hn hf hs (hl d (by simp))
    have hsh2 : Shrink (fun q => below p q = true) w.fs w2.fs :=
      hsh.mono (fun q hq => below_of_child_le hq)
    obtain ⟨w1, h1, h2, h3⟩ := ihd w2 (fun x hx => hv x (by simp [hx]))
      (hsh2.realDir (fun q hq => not_below_of_le hq) hr) (hsh.namesOk hn)
      (hf.fitsShrink hsh) (hs.shallowShrink hsh) (fun x hx => hl x (by simp [hx]))
    refine ⟨w1, by rw [hloop, h1], hsh2.trans h2, ?_⟩
    intro q hq hex e he
    by_cases hdq : p ++ [d] <+: q
    · exact hgone q hq hdq e (h2.mem he)
    · obtain ⟨x, hx, hxq⟩ := hex
      have hxds : x ∈ ds := by
        rcases List.mem_cons.mp hx with h | h
        · exact absurd (h ▸ hxq) hdq
        · exact h
      have hqp : q ≠ p := by
        intro h
        have := hxq.length_le
        simp [h] at this
      exact h3 q (hq.keep hsh hdq hqp) ⟨x, hxds, hxq⟩ e he

theorem sys_rmdir_subset (deny : Path → Bool) (w : World) (path : CStr) :
    ∀ e ∈ (w.call (sys_rmdir deny w.fs path)).1.fs, e ∈ w.fs := by
  intro e he
  cases h : sys_rmdir deny w.fs path with
  | error x => simpa [World.call, h] using he
  | ok fs1 =>
    simp only [World.call, h] at he
    have hsub : ∃ p, fs1 = erase w.fs p := by
      simp only [sys_rmdir] at h
      split at h
      · cases h
      · split at h
        · cases h
        · split at h
          · cases h
          · split at h
            · cases h
            · split at h
              · cases h
              · split at h
                · cases h
                · simp only [Except.ok.injEq] at h
                  exact ⟨_, h.symm⟩
          · cases h
    obtain ⟨p, hp⟩ := hsub
    rw [hp] at he
    exact (List.mem_filter.mp he).1


theorem rmdirs_be (deny : Path → Bool) :
    ∀ k : Nat, BestEffortSpec deny k (rmdirs deny false k) := by
  intro k
  induction k with
  | zero =>
    intro w path p hr _ _ hp0 _ _ hs
    have hm := kindAt_mem (hr.1 p (List.prefix_refl p)) hp0
    have := hs _ hm [] (by simp)
    simp at this
  | succ k ih =>
    intro w path p hr hp hne hp0 hn hf hs
    have hlen : ∀ d ∈ childNames w.fs p, path.length + d.length + 2 ≤ 1024 := by
      intro d hd
      obtain ⟨e, he, h⟩ := (mem_childNames w.fs p d).mp hd
      have := hf e he [d] h (by simp)
      simp only [pathLen, List.map_cons, List.map_nil, List.sum_cons, List.sum_nil] at this
      omega
    obtain ⟨wl, hl, _, hbe⟩ := rmdirsLoop_be deny k path p hp ih (childNames w.fs p) w
      (childNames_valid w.fs hn p) hr hn hf hs hlen
    obtain ⟨w1, r, hres, hclean⟩ := rmdirs_prog deny false (k + 1) w path p hr hp hne hp0 hn
      hf hs
    have hfr := rmdirs_frame deny false (k + 1) w path p w1 r hr hp hne hp0 hn hres
    have hsub : ∀ e ∈ w1.fs, e ∈ wl.fs := by
      have h2 := hres
      rw [rmdirs, sys_opendir_real w.fs path p hr hp hne] at h2
      simp only [hl, Except.ok.injEq] at h2
      intro e he
      exact sys_rmdir_subset deny wl path e (by rw [h2]; exact he)
    refine ⟨w1, r, hres, fun q hq e he => ?_⟩
    by_cases hqp : q = p
    · subst hqp
      exact hfr.2.1 (hclean hq.2.2.2) e he
    · obtain ⟨rest, hrest⟩ := hq.1
      cases rest with
      | nil => exact absurd (by simpa using hrest.symm) hqp
      | cons d rest =>
        have hpre : p ++ [d] <+: q := ⟨rest, by simp [← hrest]⟩
        by_cases hd : d ∈ childNames w.fs p
        · exact hbe q hq ⟨d, hd, hpre⟩ e (hsub e he)
        · have hk : kindAt w.fs (p ++ [d]) = none := by
            cases hk : kindAt w.fs (p ++ [d]) with
            | none => rfl
            | some k2 =>
              exact absurd ((mem_childNames w.fs p d).mpr ⟨_, kindAt_mem hk (by simp), rfl⟩) hd
          have hqe := hq.child_eq hpre (by simp [hk])
          exact CleanAt.nothing hq.2.2.2 (hqe ▸ hk) e (hfr.1.mem he)

/-- What `force_destroy_group_dir` does on a group whose directory is a real
directory, when the paths fit the buffer and the recursion depth suffices. -/
theorem force_destroy_spec (deny : Path → Bool) (fuel : Nat) (w : World) (g : CStr)
    (hr : RealDir w.fs (groupDir g)) (hn : NamesOk w.fs)
    (hf : Fits w.fs (groupDir g) (join2 GROUPPATH g)) (hs : Shallow w.fs (groupDir g) fuel) :
    ∃ w1 b, force_destroy_group_dir deny fuel w g = Except.ok (w1, b) ∧
      Shrink (fun q => groupDir g <+: q ∧ kindAt w.fs q ≠ some Kind.other) w.fs w1.fs ∧
      (b = true → ∀ e ∈ w1.fs, ¬ groupDir g <+: e.1) ∧
      (b = false → kindAt w1.fs (groupDir g) = some Kind.dir) ∧
      (CleanAt deny w.fs (groupDir g) → b = true) := by
  have hg : ValidName g := hr.2 g (by simp [groupDir])
  have hc : comps (join2 GROUPPATH g) = groupDir g := by
    rw [comps_join2 GROUPPATH g hg]; rfl
  have hne : join2 GROUPPATH g ≠ [] := by simp [join2]
  have hp0 : groupDir g ≠ [] := by simp [groupDir]
  obtain ⟨w1, r, h1, h2⟩ := rmdirs_prog deny false fuel w (join2 GROUPPATH g) (groupDir g)
    hr hc hne hp0 hn hf hs
  have h3 := rmdirs_frame deny false fuel w (join2 GROUPPATH g) (groupDir g) w1 r
    hr hc hne hp0 hn h1
  refine ⟨w1, decide (r = 0), by simp [force_destroy_group_dir, h1], h3.1, ?_, ?_, ?_⟩
  · intro hb; exact h3.2.1 (by simpa using hb)
  · intro hb; exact h3.2.2 (by simpa using hb)
  · intro hcl; simpa using h2 hcl

theorem walk1_follow (fs : Fs) :
    ∀ (rest : List CStr) (cur : Path),
      (∀ p, walk1 fs false cur rest = Step.done p → ∀ t, kindAt fs p ≠ some (Kind.lnk t)) →
      walk1 fs true cur rest = walk1 fs false cur rest := by
  intro rest
  induction rest with
  | nil => intro cur _; rfl
  | cons c rest ih =>
    intro cur h
    simp only [walk1] at h ⊢
    by_cases h1 : c = ['.']
    · simp only [h1, if_true] at h ⊢; exact ih cur h
    · by_cases h2 : c = ['.', '.']
      · simp only [h1, h2, if_true, if_false] at h ⊢; exact ih _ h
      · simp only [h1, h2, if_false] at h ⊢
        cases hk : kindAt fs (cur ++ [c]) with
        | none => simp
        | some k =>
          cases k with
          | reg => simp
          | other => simp
          | dir => simp only [hk] at h ⊢; exact ih _ h
          | lnk t =>
            simp only [hk] at h ⊢
            by_cases hr : rest = []
            · simp only [hr, true_and, if_true] at h
              exact absurd hk (h _ rfl t)
            · simp [hr]

theorem resolveFrom_follow (fs : Fs) (p : Path) (hp : ∀ t, kindAt fs p ≠ some (Kind.lnk t)) :
    ∀ (k : Nat) (cur : Path) (rest : List CStr),
      resolveFrom fs false k cur rest = Except.ok p →
      resolveFrom fs true k cur rest = Except.ok p := by
  intro k
  induction k with
  | zero => intro cur rest h; simp [resolveFrom] at h
  | succ k ih =>
    intro cur rest h
    simp only [resolveFrom] at h ⊢
    have hw : walk1 fs true cur rest = walk1 fs false cur rest := by
      apply walk1_follow
      intro p2 hp2
      rw [hp2] at h
      simp only [Except.ok.injEq] at h
      rw [h]; exact hp
    rw [hw]
    cases hs : walk1 fs false cur rest with
    | done p2 => simpa [hs] using h
    | err e => simp [hs] at h
    | hop c t r =>
      simp only [hs] at h ⊢
      exact ih _ _ h

theorem comps_join2_noslash (path n : CStr) (hn : '/' ∉ n) (hne : n ≠ []) :
    comps (join2 path n) = comps path ++ [n] := by
  unfold comps join2
  exact splitAux_append_slash path n hn hne []

theorem namei_dot (fs : Fs) (follow : Bool) (path : CStr) (p : Path)
    (hr : RealDir fs p) (hp : comps path = p) :
    namei fs follow (join2 path ['.']) = Except.ok p := by
  have h1 := walk1_dirs fs follow p [] [['.']] hr.2 (fun q hq => by simpa using hr.1 q hq)
  simp only [List.nil_append] at h1
  have hne : join2 path ['.'] ≠ [] := by simp [join2]
  simp [namei, hne, resolveFrom, MAXSYMLINKS, comps_join2_noslash path ['.'] (by decide)
    (by decide), hp, h1, walk1]

theorem namei_dotdot (fs : Fs) (follow : Bool) (path : CStr) (p : Path)
    (hr : RealDir fs p) (hp : comps path = p) :
    namei fs follow (join2 path ['.', '.']) = Except.ok p.dropLast := by
  have h1 := walk1_dirs fs follow p [] [['.', '.']] hr.2 (fun q hq => by simpa using hr.1 q hq)
  simp only [List.nil_append] at h1
  have hne : join2 path ['.', '.'] ≠ [] := by simp [join2]
  simp [namei, hne, resolveFrom, MAXSYMLINKS, comps_join2_noslash path ['.', '.'] (by decide)
    (by decide), hp, h1, walk1]

theorem kindAt_append_some (fs : Fs) (x : Path × Kind) (q : Path) (k : Kind)
    (h : kindAt fs q = some k) : kindAt (fs ++ [x]) q = some k := by
  cases q with
  | nil => exact h
  | cons a as =>
    simp only [kindAt, Option.map_eq_some'] at h ⊢
    obtain ⟨e, he, hk⟩ := h
    exact ⟨e, by simp [List.find?_append, he], hk⟩

theorem kindAt_append_none (fs : Fs) (x : Path × Kind) (q : Path)
    (h : kindAt fs q = none) :
    kindAt (fs ++ [x]) q = if x.1 = q then some x.2 else none := by
  cases q with
  | nil => simp [kindAt] at h
  | cons a as =>
    simp only [kindAt, Option.map_eq_none'] at h
    simp only [kindAt, List.find?_append, h, Option.none_or, List.find?_cons, List.find?_nil]
    by_cases hx : x.1 = a :: as <;> simp [hx]

theorem RealDir.append {fs : Fs} {p : Path} (hr : RealDir fs p) (x : Path × Kind) :
    RealDir (fs ++ [x]) p :=
  ⟨fun q hq => kindAt_append_some fs x q _ (hr.1 q hq), hr.2⟩

theorem create_group_symlink_step (lxcpath : CStr) (w : World) (g c : CStr)
    (hc : ValidName c) (hr : RealDir w.fs (groupDir g)) :
    (kindAt w.fs (groupDir g ++ [c]) = none →
      create_group_symlink true lxcpath w g c =
        (⟨w.fs ++ [(groupDir g ++ [c], Kind.lnk (join2 lxcpath c))], some Errno.ENOENT⟩, true)) ∧
    ((∃ k, kindAt w.fs (groupDir g ++ [c]) = some k) →
      (create_group_symlink true lxcpath w g c).2 = false ∧
      (create_group_symlink true lxcpath w g c).1.fs = w.fs) := by
  have hg : ValidName g := hr.2 g (by simp [groupDir])
  have hcomps : comps (join2 GROUPPATH g) = groupDir g := by
    rw [comps_join2 GROUPPATH g hg]; rfl
  have hnf : namei w.fs false (join2 (join2 GROUPPATH g) c) = Except.ok (groupDir g ++ [c]) :=
    namei_child w.fs false _ c _ hr hcomps hc (Or.inl rfl)
  have htgt : join2 lxcpath c ≠ [] := by simp [join2]
  constructor
  · intro habs
    have hnt : namei w.fs true (join2 (join2 GROUPPATH g) c) = Except.ok (groupDir g ++ [c]) :=
      namei_child w.fs true _ c _ hr hcomps hc (Or.inr (by simp [habs]))
    simp [create_group_symlink, sys_access, hnt, habs, sys_symlink, htgt, hnf, World.call]
  · rintro ⟨k, hk⟩
    simp only [create_group_symlink, Bool.true_eq_false, if_false]
    cases ha : sys_access w.fs (join2 (join2 GROUPPATH g) c) with
    | ok u => simp
    | error e => simp [sys_symlink, htgt, hnf, hk, World.call]

theorem mkdirLoop_noslash (n : CStr) (hn : '/' ∉ n) :
    ∀ (st : World × Int) (pre : CStr), mkdirLoop st pre n = st := by
  induction n with
  | nil => intro st pre; rfl
  | cons c cs ih =>
    intro st pre
    have hc : c ≠ '/' := fun h => hn (by simp [h])
    simp only [mkdirLoop, hc, if_false]
    exact ih (fun h => hn (by simp [h])) st _

theorem mkdirLoop_seg (n : CStr) (hn : '/' ∉ n) :
    ∀ (st : World × Int) (pre rest : CStr),
      mkdirLoop st pre (n ++ '/' :: rest)
        = mkdirLoop (st.1.call (sys_mkdir st.1.fs (pre ++ n))) (pre ++ n ++ ['/']) rest := by
  induction n with
  | nil => intro st pre rest; simp [mkdirLoop]
  | cons c cs ih =>
    intro st pre rest
    have hc : c ≠ '/' := fun h => hn (by simp [h])
    have h1 : mkdirLoop st pre (c :: (cs ++ '/' :: rest))
        = mkdirLoop st (pre ++ [c]) (cs ++ '/' :: rest) := by
      simp only [mkdirLoop, hc, if_false]
    rw [List.cons_append, h1, ih (fun h => hn (by simp [h])) st (pre ++ [c]) rest]
    simp

theorem mkdirLoop_chain :
    ∀ (segs : List CStr) (st : World × Int) (path rest : CStr), (∀ n ∈ segs, '/' ∉ n) →
      mkdirLoop st (path ++ ['/']) (segString segs ++ rest)
        = mkdirLoop (mkdirChain st path segs) (joinAll path segs ++ ['/']) rest := by
  intro segs
  induction segs with
  | nil => intro st path rest _; simp [segString, mkdirChain, joinAll]
  | cons n ns ih =>
    intro st path rest h
    simp only [segString, List.cons_append, List.append_assoc, mkdirChain, joinAll]
    rw [mkdirLoop_seg n (h n (by simp))]
    have := ih (st.1.call (sys_mkdir st.1.fs (join2 path n))) (join2 path n) rest
      (fun x hx => h x (by simp [hx]))
    simpa [join2] using this

theorem mkdir_child (w : World) (path d : CStr) (p : Path) (hr : RealDir w.fs p)
    (hp : comps path = p) (hd : ValidName d) :
    (kindAt w.fs (p ++ [d]) = none →
      w.call (sys_mkdir w.fs (join2 path d))
        = ({ w with fs := w.fs ++ [(p ++ [d], Kind.dir)] }, 0)) ∧
    (∀ k, kindAt w.fs (p ++ [d]) = some k →
      w.call (sys_mkdir w.fs (join2 path d)) = ({ w with errno := some Errno.EEXIST }, -1)) := by
  have hn := namei_child w.fs false path d p hr hp hd (Or.inl rfl)
  constructor
  · intro h; simp [sys_mkdir, hn, h, World.call]
  · intro k h; simp [sys_mkdir, hn, h, World.call]

theorem mkdirChain_spec :
    ∀ (segs : List CStr) (st : World × Int) (path : CStr) (p : Path),
      RealDir st.1.fs p → comps path = p → (∀ n ∈ segs, ValidName n) →
      (∀ q, q <+: segs →
        kindAt st.1.fs (p ++ q) = some Kind.dir ∨ kindAt st.1.fs (p ++ q) = none) →
      RealDir (mkdirChain st path segs).1.fs (p ++ segs) ∧
      comps (joinAll path segs) = p ++ segs ∧
      (segs ≠ [] → (mkdirChain st path segs).2 = 0 ∨
        ((mkdirChain st path segs).2 = -1 ∧
          (mkdirChain st path segs).1.errno = some Errno.EEXIST)) ∧
      (∀ q, ¬ q <+: p ++ segs → kindAt (mkdirChain st path segs).1.fs q = kindAt st.1.fs q) ∧
      (RealDir st.1.fs (p ++ segs) → (mkdirChain st path segs).1.fs = st.1.fs) ∧
      (∀ e ∈ (mkdirChain st path segs).1.fs, e ∈ st.1.fs ∨ e.1 <+: p ++ segs) := by
  intro segs
  induction segs with
  | nil =>
    intro st path p hr hp _ _
    refine ⟨?_, ?_, ?_, ?_, ?_, ?_⟩
    · simpa [mkdirChain] using hr
    · simpa [joinAll] using hp
    · intro h; exact absurd rfl h
    · intro q _; rfl
    · intro _; rfl
    · intro e he; exact Or.inl he
  | cons n ns ih =>
    intro st path p hr hp hv hk
    have hn : ValidName n := hv n (by simp)
    have hcomps : comps (join2 path n) = p ++ [n] := by rw [comps_join2 path n hn, hp]
    have hstep := mkdir_child st.1 path n p hr hp hn
    -- the state after the first call
    have key : ∃ st1 : World × Int,
        st.1.call (sys_mkdir st.1.fs (join2 path n)) = st1 ∧
        RealDir st1.1.fs (p ++ [n]) ∧
        (st1.2 = 0 ∨ (st1.2 = -1 ∧ st1.1.errno = some Errno.EEXIST)) ∧
        (∀ q, q ≠ p ++ [n] → kindAt st1.1.fs q = kindAt st.1.fs q) ∧
        (∀ q, kindAt st.1.fs q = some Kind.dir → kindAt st1.1.fs q = some Kind.dir) ∧
        (kindAt st.1.fs (p ++ [n]) = some Kind.dir → st1.1.fs = st.1.fs) ∧
        (∀ e ∈ st1.1.fs, e ∈ st.1.fs ∨ e.1 = p ++ [n]) := by
      rcases hk [n] (by simp [List.cons_prefix_cons]) with h | h
      · refine ⟨_, hstep.2 _ h, ?_, ?_, ?_, ?_, ?_, ?_⟩
        · exact hr.childDir hn h
        · right; simp
        · intro _ _; rfl
        · intro _ hq; exact hq
        · intro _; rfl
        · intro e he; exact Or.inl he
      · refine ⟨_, hstep.1 h, ?_, Or.inl rfl, ?_, ?_, ?_, ?_⟩
        · exact (hr.append _).childDir hn (by rw [kindAt_append_none _ _ _ h]; simp)
        · intro q hq
          cases hkq : kindAt st.1.fs q with
          | some k => exact kindAt_append_some _ _ _ _ hkq
          | none =>
            rw [kindAt_append_none _ _ _ hkq]
            have hne : ¬ p ++ [n] = q := fun h2 => hq h2.symm
            simp [hne]
        · intro q hq; exact kindAt_append_some _ _ _ _ hq
        · intro h2; rw [h] at h2; cases h2
        · intro e he
          rcases List.mem_append.mp he with h2 | h2
          · exact Or.inl h2
          · right; simp at h2; rw [h2]
    obtain ⟨st1, hst1, hr1, hret1, hfr1, hmono1, hsame1, hmem1⟩ := key
    have hk1 : ∀ q, q <+: ns →
        kindAt st1.1.fs (p ++ [n] ++ q) = some Kind.dir ∨ kindAt st1.1.fs (p ++ [n] ++ q) = none := by
      intro q hq
      by_cases hq0 : q = []
      · left; rw [hq0, List.append_nil]; exact hr1.1 _ (List.prefix_refl _)
      · have hne : p ++ [n] ++ q ≠ p ++ [n] := by
          intro h
          have := congrArg List.length h
          simp at this
          exact hq0 this
        rw [hfr1 _ hne]
        have := hk (n :: q) (by simp [List.cons_prefix_cons, hq])
        simpa using this
    obtain ⟨h1, h2, h3, h4, h5, h6⟩ := ih st1 (join2 path n) (p ++ [n]) hr1 hcomps
      (fun x hx => hv x (by simp [hx])) hk1
    simp only [mkdirChain, joinAll, hst1]
    have happ : p ++ n :: ns = p ++ [n] ++ ns := by simp
    rw [happ]
    refine ⟨h1, h2, fun _ => ?_, fun q hq => ?_, fun hrd => ?_, fun e he => ?_⟩
    rotate_right
    · rcases h6 e he with h7 | h7
      · rcases hmem1 e h7 with h8 | h8
        · exact Or.inl h8
        · right; rw [h8]; exact List.prefix_append _ _
      · exact Or.inr h7
    · by_cases hns : ns = []
      · subst hns; simpa [mkdirChain] using hret1
      · exact h3 hns
    · rw [h4 q hq]
      apply hfr1
      intro he
      exact hq (he ▸ List.prefix_append _ _)
    · have hkd : kindAt st.1.fs (p ++ [n]) = some Kind.dir :=
        hrd.1 _ (List.prefix_append _ _)
      have hfs := hsame1 hkd
      rw [h5 (by rw [hfs]; exact hrd), hfs]

theorem join2_root (name : CStr) :
    join2 GROUPPATH name = '/' :: (segString rootPath ++ name) := by
  have h : GROUPPATH ++ ['/'] = '/' :: segString rootPath := by decide
  calc join2 GROUPPATH name = (GROUPPATH ++ ['/']) ++ name := by simp [join2]
    _ = '/' :: (segString rootPath ++ name) := by rw [h]; rfl

theorem _mkdir_unfold (w : World) (name : CStr) (hne : name ≠ []) (hs : '/' ∉ name)
    (hlen : (join2 GROUPPATH name).length < 256) :
    _mkdir w (join2 GROUPPATH name) =
      if (mkdirChain (w, -1) [] rootPath).2 ≠ 0 ∧
          (mkdirChain (w, -1) [] rootPath).1.errno ≠ some Errno.EEXIST then
        Except.ok ((mkdirChain (w, -1) [] rootPath).1, -1)
      else if ((mkdirChain (w, -1) [] rootPath).1.call
          (sys_mkdir (mkdirChain (w, -1) [] rootPath).1.fs (join2 GROUPPATH name))).2 ≠ 0 then
        Except.ok (((mkdirChain (w, -1) [] rootPath).1.call
          (sys_mkdir (mkdirChain (w, -1) [] rootPath).1.fs (join2 GROUPPATH name))).1, -1)
      else
        Except.ok (((mkdirChain (w, -1) [] rootPath).1.call
          (sys_mkdir (mkdirChain (w, -1) [] rootPath).1.fs (join2 GROUPPATH name))).1,
          ((mkdirChain (w, -1) [] rootPath).1.call
          (sys_mkdir (mkdirChain (w, -1) [] rootPath).1.fs (join2 GROUPPATH name))).2) := by
  have htake : (join2 GROUPPATH name).take 255 = join2 GROUPPATH name :=
    List.take_of_length_le (by omega)
  have hlast : (join2 GROUPPATH name).getLast? ≠ some '/' := by
    intro h
    rcases List.eq_nil_or_concat name with h0 | ⟨ini, l, hl⟩
    · exact hne h0
    · have h1 : join2 GROUPPATH name = (GROUPPATH ++ '/' :: ini) ++ [l] := by
        simp [join2, hl]
      rw [h1, List.getLast?_concat] at h
      simp only [Option.some.injEq] at h
      exact hs (by rw [hl, h]; simp)
  have hdrop : (join2 GROUPPATH name).drop 1 = segString rootPath ++ name := by
    rw [join2_root]; rfl
  have hloop : mkdirLoop (w, -1) ['/'] (segString rootPath ++ name)
      = mkdirChain (w, -1) [] rootPath := by
    have h1 := mkdirLoop_chain rootPath (w, -1) [] name (by decide)
    simp only [List.nil_append] at h1
    rw [h1, mkdirLoop_noslash name hs]
  unfold _mkdir
  simp only [htake]
  rw [join2_root] at hlast hdrop ⊢
  simp only [hlast, if_false, hdrop, hloop]


theorem name_cases (name : CStr) (hne : name ≠ []) (hs : '/' ∉ name) :
    ValidName name ∨ name = ['.'] ∨ name = ['.', '.'] := by
  by_cases h1 : name = ['.']
  · exact Or.inr (Or.inl h1)
  · by_cases h2 : name = ['.', '.']
    · exact Or.inr (Or.inr h2)
    · exact Or.inl ⟨hne, hs, h1, h2⟩

theorem create_group_dir_spec (w : World) (name : CStr) (hne : name ≠ []) (hs : '/' ∉ name)
    (hlen : (join2 GROUPPATH name).length < 256)
    (hanc : ∀ q, q <+: rootPath → kindAt w.fs q = some Kind.dir ∨ kindAt w.fs q = none)
    (hk : kindAt w.fs (groupDir name) = none ∨ kindAt w.fs (groupDir name) = some Kind.dir) :
    ∃ w1, create_group_dir w name = Except.ok (w1, true) ∧ RealDir w1.fs rootPath ∧
      sys_lstat w1.fs (join2 GROUPPATH name) = Except.ok Kind.dir ∧
      (kindAt w1.fs (groupDir name) = none ∨ kindAt w1.fs (groupDir name) = some Kind.dir) ∧
      (RealDir w.fs rootPath → sys_lstat w.fs (join2 GROUPPATH name) = Except.ok Kind.dir →
        w1.fs = w.fs) ∧
      (ValidName name → kindAt w.fs (groupDir name) = none →
        w1.fs.filter (fun e => decide (e.1 = groupDir name)) = [(groupDir name, Kind.dir)]) := by
  have hr0 : RealDir (w, (-1 : Int)).1.fs [] :=
    ⟨fun q hq => by rw [List.prefix_nil.mp hq]; rfl, fun n hn => by simp at hn⟩
  obtain ⟨h1, _, h3, h4, h5, h6⟩ := mkdirChain_spec rootPath (w, -1) [] [] hr0 rfl (by decide)
    (fun q hq => by simpa using hanc q hq)
  simp only [List.nil_append] at h1 h4 h5 h6
  have h3 := h3 (by decide)
  have hcg : comps GROUPPATH = rootPath := rfl
  have hnl : ¬ groupDir name <+: rootPath := by
    intro h
    have := h.length_le
    simp [groupDir] at this
  have hkq : kindAt (mkdirChain (w, -1) [] rootPath).1.fs (groupDir name)
      = kindAt w.fs (groupDir name) := h4 _ hnl
  have hif1 : ¬ ((mkdirChain (w, -1) [] rootPath).2 ≠ 0 ∧
      (mkdirChain (w, -1) [] rootPath).1.errno ≠ some Errno.EEXIST) := by
    rintro ⟨ha, hb⟩
    rcases h3 with h | h
    · exact ha h
    · exact hb h.2
  have hunf := _mkdir_unfold w name hne hs hlen
  simp only [hif1, if_false] at hunf
  clear hif1 h3 h4 hr0
  generalize mkdirChain (w, -1) [] rootPath = st5 at h1 h5 h6 hkq hunf
  -- the final `mkdir` finds the directory in place
  have common : sys_mkdir st5.1.fs (join2 GROUPPATH name)
        = Except.error Errno.EEXIST →
      sys_lstat st5.1.fs (join2 GROUPPATH name)
        = Except.ok Kind.dir →
      ¬ (ValidName name ∧ kindAt w.fs (groupDir name) = none) →
      ∃ w1, create_group_dir w name = Except.ok (w1, true) ∧ RealDir w1.fs rootPath ∧
        sys_lstat w1.fs (join2 GROUPPATH name) = Except.ok Kind.dir ∧
        (kindAt w1.fs (groupDir name) = none ∨
          kindAt w1.fs (groupDir name) = some Kind.dir) ∧
        (RealDir w.fs rootPath → sys_lstat w.fs (join2 GROUPPATH name) = Except.ok Kind.dir →
          w1.fs = w.fs) ∧
        (ValidName name → kindAt w.fs (groupDir name) = none →
          w1.fs.filter (fun e => decide (e.1 = groupDir name))
            = [(groupDir name, Kind.dir)]) := by
    intro hmk hl hex
    refine ⟨{ st5.1 with errno := some Errno.EEXIST }, ?_, h1, hl,
      by rw [hkq]; exact hk, fun hrw _ => h5 hrw, fun hv hn => absurd ⟨hv, hn⟩ hex⟩
    unfold create_group_dir do_create_group_dir
    rw [hunf]
    simp [hmk, World.call]
  rcases name_cases name hne hs with hv | hdot | hdd
  · rcases hk with hk0 | hk0
    · have hmk := (mkdir_child st5.1 GROUPPATH name rootPath
        h1 hcg hv).1 (by show kindAt st5.1.fs (groupDir name) = none; rw [hkq]; exact hk0)
      have hkn : kindAt (st5.1.fs ++ [(groupDir name, Kind.dir)])
          (groupDir name) = some Kind.dir := by
        rw [kindAt_append_none _ _ _ (by rw [hkq]; exact hk0)]; simp
      refine ⟨{ st5.1 with fs := st5.1.fs ++ [(groupDir name, Kind.dir)] }, ?_,
        h1.append (groupDir name, Kind.dir), ?_, Or.inr hkn, ?_, ?_⟩
      rotate_right
      · intro _ _
        have hnone : st5.1.fs.filter (fun e => decide (e.1 = groupDir name)) = [] := by
          rw [List.filter_eq_nil_iff]
          intro e he
          simp only [decide_eq_true_eq]
          intro heq
          rcases h6 e he with h7 | h7
          · obtain ⟨k, hk2⟩ := kindAt_isSome_of_mem h7 (by rw [heq]; simp [groupDir])
            rw [heq, hk0] at hk2
            cases hk2
          · exact hnl (heq ▸ h7)
        simp [List.filter_append, hnone]
      · unfold create_group_dir do_create_group_dir
        rw [hunf, hmk]
        simp [groupDir]
      · rw [sys_lstat_child _ GROUPPATH name rootPath (h1.append _) hcg hv]
        show (match kindAt _ (groupDir name) with
          | none => Except.error Errno.ENOENT
          | some k => Except.ok k) = _
        rw [hkn]
      · intro hrw hl
        rw [sys_lstat_child _ GROUPPATH name rootPath hrw hcg hv] at hl
        have hk1 : kindAt w.fs (rootPath ++ [name]) = none := hk0
        rw [hk1] at hl
        cases hl
    · apply common
      · have hmk := (mkdir_child st5.1 GROUPPATH name rootPath
          h1 hcg hv).2 Kind.dir (by
            show kindAt st5.1.fs (groupDir name) = some Kind.dir
            rw [hkq]; exact hk0)
        simp only [World.call] at hmk
        cases hm : sys_mkdir st5.1.fs (join2 GROUPPATH name) with
        | ok x => simp [hm] at hmk
        | error e => simp [hm] at hmk; rw [hmk]
      · rw [sys_lstat_child _ GROUPPATH name rootPath h1 hcg hv]
        have hk1 : kindAt st5.1.fs (rootPath ++ [name]) = some Kind.dir := by
          show kindAt st5.1.fs (groupDir name) = some Kind.dir
          rw [hkq]; exact hk0
        rw [hk1]
      · rintro ⟨_, hn⟩
        rw [hk0] at hn
        cases hn
  · subst hdot
    apply common
    · simp [sys_mkdir, namei_dot _ false GROUPPATH rootPath h1 hcg,
        h1.1 rootPath (List.prefix_refl _)]
    · simp [sys_lstat, namei_dot _ false GROUPPATH rootPath h1 hcg,
        h1.1 rootPath (List.prefix_refl _)]
    · rintro ⟨hv, _⟩
      exact hv.2.2.1 rfl
  · subst hdd
    have hkd := h1.1 rootPath.dropLast (List.dropLast_prefix _)
    apply common
    · simp [sys_mkdir, namei_dotdot _ false GROUPPATH rootPath h1 hcg, hkd]
    · simp [sys_lstat, namei_dotdot _ false GROUPPATH rootPath h1 hcg, hkd]
    · rintro ⟨hv, _⟩
      exact hv.2.2.2 rfl

/-! ## Claims -/

/-- C1 (code defect): on the group `web` that still holds the membership link
`c1`, the non-forced `destroy_group_dir` leaves the directory and the link in
place (`rmdir` fails with `ENOTEMPTY`) and nevertheless returns `true`. -/
theorem destroy_group_dir_nonempty_returns_true :
    kindAt fsWebC1 (rootPath ++ [web]) = some Kind.dir ∧
    isEmptyDir fsWebC1 (rootPath ++ [web]) = false ∧
    destroy_group_dir allow ⟨fsWebC1, none⟩ web = (⟨fsWebC1, some Errno.ENOTEMPTY⟩, true) := by
  decide

/-- C5: when the container handle's `is_defined` flag is false, both
`create_group_symlink` and `delete_group_symlink` return `false` and leave the
process state (filesystem and `errno`) exactly as it was. -/
theorem undefined_container_no_change (deny : Path → Bool) (lxcpath : CStr) (w : World)
    (groupname containername : CStr) :
    create_group_symlink false lxcpath w groupname containername = (w, false) ∧
    delete_group_symlink deny false w groupname containername = (w, false) := by
  simp [create_group_symlink, delete_group_symlink]

/-- C10 (as stated, refuted): the token `d` is an initial segment of both
`destroy` and `del`, yet `main` does not treat it as a usage error: it takes
the `destroy` branch, removes the empty group `web` and exits with success.
The empty token takes the `create` branch. -/
theorem ambiguous_token_is_dispatched :
    ("d".toList <+: Verb.destroy.text ∧ "d".toList <+: Verb.del.text) ∧
    selectVerb "d".toList = some Verb.destroy ∧
    main allow 1 false [] ⟨"d".toList, [], web, [], false⟩ ⟨fsWeb, none⟩
      = Except.ok (⟨fsRoot, none⟩, EXIT_SUCCESS) ∧
    selectVerb [] = some Verb.create := by
  decide

/-- C10 (amended): for a verb token `cmd` (a NUL-free string) `main` takes the
branch of the first verb, in the order create, destroy, add, del, of which
`cmd` is an initial segment, and runs that verb's operation: `create_group_dir`
for create, `force_destroy_group_dir` or `destroy_group_dir` (by the force
flag) for destroy, `create_group_symlink` for add, `delete_group_symlink` for
del, exiting with the operation's result.  Hence a token that is an initial
segment of exactly one verb runs that verb's operation, and a token that is an
initial segment of none is a usage error: `main` invokes no operation (the
state is unchanged) and exits with `EXIT_FAILURE`. -/
theorem main_selects_first_matching_verb (cmd : CStr) (hc : ∀ c ∈ cmd, c ≠ Char.ofNat 0)
    (deny : Path → Bool) (fuel : Nat) (defined : Bool) (lxcpath : CStr)
    (my_args : Arguments) (w : World) (harg : my_args.argv0 = cmd) :
    (cmd <+: Verb.create.text →
      main deny fuel defined lxcpath my_args w
        = (create_group_dir w my_args.groupname).map exitOf) ∧
    (¬ cmd <+: Verb.create.text → cmd <+: Verb.destroy.text →
      main deny fuel defined lxcpath my_args w
        = if my_args.force = true then
            (force_destroy_group_dir deny fuel w my_args.groupname).map exitOf
          else Except.ok (exitOf (destroy_group_dir deny w my_args.groupname))) ∧
    (¬ cmd <+: Verb.create.text → ¬ cmd <+: Verb.destroy.text → cmd <+: Verb.add.text →
      main deny fuel defined lxcpath my_args w
        = Except.ok (exitOf (create_group_symlink defined lxcpath w my_args.argv1
            my_args.name))) ∧
    (¬ cmd <+: Verb.create.text → ¬ cmd <+: Verb.destroy.text → ¬ cmd <+: Verb.add.text →
      cmd <+: Verb.del.text →
      main deny fuel defined lxcpath my_args w
        = Except.ok (exitOf (delete_group_symlink deny defined w my_args.argv1
            my_args.name))) ∧
    (∀ v : Verb, cmd <+: v.text → (∀ v2 : Verb, cmd <+: v2.text → v2 = v) →
      main deny fuel defined lxcpath my_args w =
        match v with
        | Verb.create => (create_group_dir w my_args.groupname).map exitOf
        | Verb.destroy =>
          if my_args.force = true then
            (force_destroy_group_dir deny fuel w my_args.groupname).map exitOf
          else Except.ok (exitOf (destroy_group_dir deny w my_args.groupname))
        | Verb.add =>
          Except.ok (exitOf (create_group_symlink defined lxcpath w my_args.argv1
            my_args.name))
        | Verb.del =>
          Except.ok (exitOf (delete_group_symlink deny defined w my_args.argv1
            my_args.name))) ∧
    ((∀ v : Verb, ¬ cmd <+: v.text) →
      main deny fuel defined lxcpath my_args w = Except.ok (w, EXIT_FAILURE)) := by
  have hsel := selectVerb_eq cmd hc
  rw [← harg] at hsel
  have hcre : cmd <+: Verb.create.text →
      main deny fuel defined lxcpath my_args w
        = (create_group_dir w my_args.groupname).map exitOf := by
    intro h1
    rw [← harg] at h1
    simp [main, hsel, h1]
  have hdes : ¬ cmd <+: Verb.create.text → cmd <+: Verb.destroy.text →
      main deny fuel defined lxcpath my_args w
        = if my_args.force = true then
            (force_destroy_group_dir deny fuel w my_args.groupname).map exitOf
          else Except.ok (exitOf (destroy_group_dir deny w my_args.groupname)) := by
    intro h1 h2
    rw [← harg] at h1 h2
    simp [main, hsel, h1, h2]
  have hadd : ¬ cmd <+: Verb.create.text → ¬ cmd <+: Verb.destroy.text →
      cmd <+: Verb.add.text →
      main deny fuel defined lxcpath my_args w
        = Except.ok (exitOf (create_group_symlink defined lxcpath w my_args.argv1
            my_args.name)) := by
    intro h1 h2 h3
    rw [← harg] at h1 h2 h3
    simp [main, hsel, h1, h2, h3]
  have hdel : ¬ cmd <+: Verb.create.text → ¬ cmd <+: Verb.destroy.text →
      ¬ cmd <+: Verb.add.text → cmd <+: Verb.del.text →
      main deny fuel defined lxcpath my_args w
        = Except.ok (exitOf (delete_group_symlink deny defined w my_args.argv1
            my_args.name)) := by
    intro h1 h2 h3 h4
    rw [← harg] at h1 h2 h3 h4
    simp [main, hsel, h1, h2, h3, h4]
  refine ⟨hcre, hdes, hadd, hdel, ?_, ?_⟩
  · intro v hv huniq
    have h1 : ∀ v2 : Verb, v2 ≠ v → ¬ cmd <+: v2.text := fun v2 hne h => hne (huniq v2 h)
    cases v
    · exact hcre hv
    · exact hdes (h1 Verb.create (by decide)) hv
    · exact hadd (h1 Verb.create (by decide)) (h1 Verb.destroy (by decide)) hv
    · exact hdel (h1 Verb.create (by decide)) (h1 Verb.destroy (by decide))
        (h1 Verb.add (by decide)) hv
  · intro hnone
    have h0 : selectVerb my_args.argv0 = none := by
      rw [hsel, harg]
      simp [hnone Verb.create, hnone Verb.destroy, hnone Verb.add, hnone Verb.del]
    simp [main, h0]

/-- C10 (amended), instance: with the token `cre`, an initial segment of
`create` only, `main` runs `create_group_dir`: the group `web` is created under
the existing registry root and the exit status is `EXIT_SUCCESS`. -/
theorem main_selects_first_matching_verb_witness :
    (∀ c ∈ "cre".toList, c ≠ Char.ofNat 0) ∧
    main allow 1 false [] ⟨"cre".toList, [], web, [], false⟩ ⟨fsRoot, none⟩
      = Except.ok (⟨fsWeb, some Errno.EEXIST⟩, EXIT_SUCCESS) :=
  ⟨by decide,
   ((main_selects_first_matching_verb "cre".toList (by decide) allow 1 false []
      ⟨"cre".toList, [], web, [], false⟩ ⟨fsRoot, none⟩ rfl).2.2.2.2.1 Verb.create (by decide)
     (fun v2 h => by cases v2 <;> first | rfl | exact absurd h (by decide))).trans
     (by decide)⟩

set_option maxRecDepth 100000 in
/-- C3 (code defect): the group `web` holds only directories and a regular file,
nested four deep under names of 255 bytes, and no removal is refused; the path
of the innermost file takes 1055 bytes.  `rmdirs` then writes past the end of
`char filename[1024]` with its unchecked `sprintf`, so `force_destroy_group_dir`
does not return success. -/
theorem force_destroy_deep_tree_overflows :
    RealDir fsDeep (groupDir web) ∧ NamesOk fsDeep ∧ CleanAt allow fsDeep (groupDir web) ∧
    (join2 GROUPPATH web).length + pathLen [nameA, nameA, nameA, nameA] = 1055 ∧
    force_destroy_group_dir allow 5 ⟨fsDeep, none⟩ web = Except.error Fault.overflow := by
  decide

/-- C8 (as stated, refuted): the group directory `web` is a real directory and
the removal of its membership link `c1` is refused.  `force_destroy_group_dir`
then does not report success: the link is still there, the final `rmdir` fails
with `ENOTEMPTY`, and the result is `false`. -/
theorem force_destroy_fails_when_entry_remains :
    RealDir fsWebC1 (groupDir web) ∧
    force_destroy_group_dir denyC1 2 ⟨fsWebC1, none⟩ web
      = Except.ok (⟨fsWebC1, some Errno.ENOTEMPTY⟩, false) := by
  decide

/-- C8 (amended): on a group whose directory is a real directory (with paths
that fit the buffer and enough recursion depth) `force_destroy_group_dir`
returns, having removed only entries at or below the group directory.  It does
not stop at a failure on a single entry: every subtree below the group
directory that it reaches and that can be removed entirely is gone afterwards,
whatever failed elsewhere.  Its result is that of the final `rmdir`: `true`
exactly when nothing at or below the group directory is left, `false` with the
group directory still in place otherwise; when nothing in the subtree resists
removal the result is `true`. -/
theorem force_destroy_reports_final_rmdir (deny : Path → Bool) (fuel : Nat) (w : World)
    (g : CStr) (hr : RealDir w.fs (groupDir g)) (hn : NamesOk w.fs)
    (hf : Fits w.fs (groupDir g) (join2 GROUPPATH g)) (hs : Shallow w.fs (groupDir g) fuel) :
    ∃ w1 b, force_destroy_group_dir deny fuel w g = Except.ok (w1, b) ∧
      Shrink (fun q => groupDir g <+: q) w.fs w1.fs ∧
      (∀ q, Removable deny w.fs (groupDir g) q → ∀ e ∈ w1.fs, ¬ q <+: e.1) ∧
      (b = true ↔ ∀ e ∈ w1.fs, ¬ groupDir g <+: e.1) ∧
      (b = false → kindAt w1.fs (groupDir g) = some Kind.dir) ∧
      (CleanAt deny w.fs (groupDir g) → b = true) := by
  have hg : ValidName g := hr.2 g (by simp [groupDir])
  have hcomps : comps (join2 GROUPPATH g) = groupDir g := by
    rw [comps_join2 GROUPPATH g hg]; rfl
  obtain ⟨w1, b, h1, h2, h3, h4, h5⟩ := force_destroy_spec deny fuel w g hr hn hf hs
  obtain ⟨w2, r, hres, hbe⟩ := rmdirs_be deny fuel w (join2 GROUPPATH g) (groupDir g) hr
    hcomps (by simp [join2]) (by simp [groupDir]) hn hf hs
  have hw : w2 = w1 := by
    have h6 := h1
    simp only [force_destroy_group_dir, hres, Except.ok.injEq, Prod.mk.injEq] at h6
    exact h6.1
  rw [hw] at hbe
  refine ⟨w1, b, h1, h2.mono (fun q hq => hq.1), hbe, ⟨h3, fun hall => ?_⟩, h4, h5⟩
  cases b with
  | true => rfl
  | false =>
    have hk := h4 rfl
    exact absurd (List.prefix_refl _) (hall _ (kindAt_mem hk (by simp [groupDir])))

/-- C8 (amended), instance: the group `web` holds the links `c1` and `c2`, and
the removal of `c1` is refused.  The forced destroy goes on after that failure:
`c2` is gone afterwards. -/
theorem force_destroy_reports_final_rmdir_witness :
    Removable denyC1 fsTwo (groupDir web) (groupDir web ++ ["c2".toList]) ∧
    ∃ w1 b, force_destroy_group_dir denyC1 2 ⟨fsTwo, none⟩ web = Except.ok (w1, b) ∧
      Shrink (fun q => groupDir web <+: q) fsTwo w1.fs ∧
      (∀ e ∈ w1.fs, ¬ groupDir web ++ ["c2".toList] <+: e.1) ∧
      (b = true ↔ ∀ e ∈ w1.fs, ¬ groupDir web <+: e.1) ∧
      (b = false → kindAt w1.fs (groupDir web) = some Kind.dir) :=
  ⟨by decide,
   (force_destroy_reports_final_rmdir denyC1 2 ⟨fsTwo, none⟩ web (by decide) (by decide)
      (by decide) (by decide)).elim fun w1 hw1 => hw1.elim fun b hb =>
        ⟨w1, b, hb.1, hb.2.1, hb.2.2.1 _ (by decide), hb.2.2.2.1, hb.2.2.2.2.1⟩⟩

/-- C9 (as stated, refuted): the group `web` holds a directory `sub` with a
FIFO in it.  `rmdirs` skips the FIFO, so `rmdir` of `sub` and of the group
directory fail with `ENOTEMPTY`: the forced destroy returns `false` and removes
nothing. -/
theorem force_destroy_keeps_fifo :
    kindAt fsFifo (groupDir web ++ ["sub".toList, "p".toList]) = some Kind.other ∧
    force_destroy_group_dir allow 3 ⟨fsFifo, none⟩ web
      = Except.ok (⟨fsFifo, some Errno.ENOTEMPTY⟩, false) := by
  decide

/-- C9 (amended): `rmdirs` never removes an entry that is neither a regular
file, a symbolic link nor a directory.  On a group (a real directory) with such
an entry `q` anywhere below it, every result that `force_destroy_group_dir`
returns is `false`, with the entry and the group directory still in place; and
the call does return when the paths it builds fit the buffer and the recursion
depth suffices. -/
theorem force_destroy_skips_unknown_kinds (deny : Path → Bool) (fuel : Nat) (w : World)
    (g : CStr) (q : Path) (hr : RealDir w.fs (groupDir g)) (hn : NamesOk w.fs)
    (hq : groupDir g <+: q) (hk : kindAt w.fs q = some Kind.other) :
    (∀ w1 b, force_destroy_group_dir deny fuel w g = Except.ok (w1, b) →
      b = false ∧ kindAt w1.fs q = some Kind.other ∧
      kindAt w1.fs (groupDir g) = some Kind.dir) ∧
    (Fits w.fs (groupDir g) (join2 GROUPPATH g) → Shallow w.fs (groupDir g) fuel →
      ∃ w1, force_destroy_group_dir deny fuel w g = Except.ok (w1, false)) := by
  have hg : ValidName g := hr.2 g (by simp [groupDir])
  have hcomps : comps (join2 GROUPPATH g) = groupDir g := by
    rw [comps_join2 GROUPPATH g hg]; rfl
  have hq0 : q ≠ [] := by
    intro h0
    rw [h0] at hq
    have := hq.length_le
    simp [groupDir] at this
  have part1 : ∀ w1 b, force_destroy_group_dir deny fuel w g = Except.ok (w1, b) →
      b = false ∧ kindAt w1.fs q = some Kind.other ∧
      kindAt w1.fs (groupDir g) = some Kind.dir := by
    intro w1 b h
    simp only [force_destroy_group_dir] at h
    cases hrd : rmdirs deny false fuel w (join2 GROUPPATH g) with
    | error f => simp [hrd] at h
    | ok x =>
      obtain ⟨w2, r⟩ := x
      simp only [hrd, Except.ok.injEq, Prod.mk.injEq] at h
      obtain ⟨hsh, hzero, hnz⟩ := rmdirs_frame deny false fuel w (join2 GROUPPATH g)
        (groupDir g) w2 r hr hcomps (by simp [join2]) (by simp [groupDir]) hn hrd
      have hk2 : kindAt w2.fs q = some Kind.other := by
        rw [hsh.kindAt_eq q (fun hs => hs.2 hk)]; exact hk
      have hr0 : r ≠ 0 := fun h0 => hzero h0 _ (kindAt_mem hk2 hq0) hq
      rw [← h.1, ← h.2]
      exact ⟨by simpa using hr0, hk2, hnz hr0⟩
  refine ⟨part1, fun hf hs => ?_⟩
  obtain ⟨w1, b, h1, _⟩ := force_destroy_spec deny fuel w g hr hn hf hs
  have hb := (part1 w1 b h1).1
  rw [hb] at h1
  exact ⟨w1, h1⟩

/-- C9 (amended), instance: the FIFO `web/sub/p`; the forced destroy returns
`false` and leaves the table as it was. -/
theorem force_destroy_skips_unknown_kinds_witness :
    (∀ w1 b, force_destroy_group_dir allow 3 ⟨fsFifo, none⟩ web = Except.ok (w1, b) →
      b = false ∧
      kindAt w1.fs (groupDir web ++ ["sub".toList, "p".toList]) = some Kind.other ∧
      kindAt w1.fs (groupDir web) = some Kind.dir) ∧
    ∃ w1, force_destroy_group_dir allow 3 ⟨fsFifo, none⟩ web = Except.ok (w1, false) :=
  ⟨(force_destroy_skips_unknown_kinds allow 3 ⟨fsFifo, none⟩ web
      (groupDir web ++ ["sub".toList, "p".toList]) (by decide) (by decide) (by decide)
      (by decide)).1,
   (force_destroy_skips_unknown_kinds allow 3 ⟨fsFifo, none⟩ web
      (groupDir web ++ ["sub".toList, "p".toList]) (by decide) (by decide) (by decide)
      (by decide)).2 (by decide) (by decide)⟩

/-- C7 (code defect): the path `/usr/local/var/lib/lxcgroup/web` is a
symbolic link to the directory `/data`.  `rmdirs` on it does not perform one
`unlink`: `opendir` follows the link, the file `/data/f` under the link's target
is removed, the final `rmdir` fails with `ENOTDIR`, and the link itself stays.
A single `unlink` would have removed the link, left `/data/f` alone and
returned 0. -/
theorem rmdirs_traverses_symlink_to_directory :
    sys_lstat fsLink (join2 GROUPPATH web) = Except.ok (Kind.lnk "/data".toList) ∧
    rmdirs allow false 2 ⟨fsLink, none⟩ (join2 GROUPPATH web)
      = Except.ok (⟨erase fsLink ["data".toList, "f".toList], some Errno.ENOTDIR⟩, -1) ∧
    World.call ⟨fsLink, none⟩ (sys_unlink allow fsLink (join2 GROUPPATH web))
      = (⟨erase fsLink (groupDir web), none⟩, 0) ∧
    kindAt fsLink ["data".toList, "f".toList] = some Kind.reg ∧
    kindAt (erase fsLink ["data".toList, "f".toList]) ["data".toList, "f".toList] = none := by
  decide

/-- The part of C7 that the code does fulfil: when `path` names a regular file,
an entry of unknown kind, or a symbolic link that does not lead to a directory, `rmdirs(path, stop)` is one
`unlink(path)` and nothing else: its result and final state are those of that
`unlink` (after the failed `opendir` has set `errno`), and no entry other than
the one `path` names is removed.  (A symbolic link that leads to a directory is
opened and traversed instead.) -/
theorem rmdirs_non_directory_is_unlink (deny : Path → Bool) (stop : Bool) (fuel : Nat)
    (w : World) (path : CStr) (k : Kind) (hk : sys_lstat w.fs path = Except.ok k)
    (hnd : k = Kind.reg ∨ k = Kind.other ∨
      ((∃ t, k = Kind.lnk t) ∧ ∀ d, sys_opendir w.fs path ≠ Except.ok d)) :
    ∃ e w1 r, rmdirs deny stop (fuel + 1) w path = Except.ok (w1, r) ∧
      (w1, r) = World.call { w with errno := some e } (sys_unlink deny w.fs path) ∧
      ∀ p, namei w.fs false path = Except.ok p → Shrink (fun q => q = p) w.fs w1.fs := by
  have hlstat := hk
  simp only [sys_lstat] at hk
  cases hn : namei w.fs false path with
  | error e0 => simp [hn] at hk
  | ok p =>
    simp only [hn] at hk
    cases hkp : kindAt w.fs p with
    | none => simp [hkp] at hk
    | some k2 =>
      simp only [hkp, Except.ok.injEq] at hk
      subst hk
      have hopen : ∃ e, sys_opendir w.fs path = Except.error e := by
        rcases hnd with h | h | h
        · have hf : namei w.fs true path = Except.ok p := by
            simp only [namei] at hn ⊢
            split at hn
            · simp at hn
            · rename_i hne
              simp only [hne, if_false]
              exact resolveFrom_follow w.fs p (by simp [hkp, h]) _ _ _ hn
          exact ⟨Errno.ENOTDIR, by simp [sys_opendir, hf, hkp, h]⟩
        · have hf : namei w.fs true path = Except.ok p := by
            simp only [namei] at hn ⊢
            split at hn
            · simp at hn
            · rename_i hne
              simp only [hne, if_false]
              exact resolveFrom_follow w.fs p (by simp [hkp, h]) _ _ _ hn
          exact ⟨Errno.ENOTDIR, by simp [sys_opendir, hf, hkp, h]⟩
        · cases ho : sys_opendir w.fs path with
          | error e => exact ⟨e, rfl⟩
          | ok d => exact absurd ho (h.2 d)
      obtain ⟨e, he⟩ := hopen
      refine ⟨e, _, _, by simp only [rmdirs, he]; rfl, rfl, ?_⟩
      intro p2 hp2
      simp only [Except.ok.injEq] at hp2
      subst hp2
      have hnotdir : k2 ≠ Kind.dir := by
        rcases hnd with h | h | ⟨⟨t, h⟩, _⟩ <;> simp [h]
      cases hd : deny p with
      | true =>
        cases k2 <;>
          first
          | exact absurd rfl hnotdir
          | (simp only [sys_unlink, hn, hkp, hd, World.call, if_true]
             exact Shrink.refl _ _)
      | false =>
        cases k2 <;>
          first
          | exact absurd rfl hnotdir
          | (simp only [sys_unlink, hn, hkp, hd, World.call, Bool.false_eq_true, if_false]
             exact Shrink_erase _ _ _ rfl)

/-- An instance of `rmdirs_non_directory_is_unlink`: the membership link
`web/c1`, whose target does not exist. -/
theorem rmdirs_non_directory_is_unlink_witness :
    ∃ e w1 r, rmdirs allow false 1 ⟨fsWebC1, none⟩ (join2 (join2 GROUPPATH web) c1)
        = Except.ok (w1, r) ∧
      (w1, r) = World.call { fs := fsWebC1, errno := some e }
        (sys_unlink allow fsWebC1 (join2 (join2 GROUPPATH web) c1)) ∧
      ∀ p, namei fsWebC1 false (join2 (join2 GROUPPATH web) c1) = Except.ok p →
        Shrink (fun q => q = p) fsWebC1 w1.fs :=
  rmdirs_non_directory_is_unlink allow false 0 ⟨fsWebC1, none⟩
    (join2 (join2 GROUPPATH web) c1) (Kind.lnk "/containers/c1".toList) (by decide)
    (Or.inr (Or.inr ⟨⟨_, rfl⟩, fun d h => by
      have h2 : sys_opendir fsWebC1 (join2 (join2 GROUPPATH web) c1)
          = Except.error Errno.ENOENT := by decide
      rw [show (World.mk fsWebC1 none).fs = fsWebC1 from rfl, h2] at h
      cases h⟩))

/-- C4: let the group directory be a real directory, the container be defined,
and nothing exist at `registry_root/group/container`.  The first
`create_group_symlink` returns `true`; a second one returns `false` and leaves
the filesystem as the first call left it, so the entry is still a symbolic
link whose target is `lxcpath/container`. -/
theorem no_overwrite_on_add (lxcpath : CStr) (w : World) (g c : CStr) (hc : ValidName c)
    (hr : RealDir w.fs (groupDir g)) (habs : kindAt w.fs (groupDir g ++ [c]) = none) :
    (create_group_symlink true lxcpath w g c).2 = true ∧
    (create_group_symlink true lxcpath (create_group_symlink true lxcpath w g c).1 g c).2
      = false ∧
    (create_group_symlink true lxcpath (create_group_symlink true lxcpath w g c).1 g c).1.fs
      = (create_group_symlink true lxcpath w g c).1.fs ∧
    sys_lstat
      (create_group_symlink true lxcpath (create_group_symlink true lxcpath w g c).1 g c).1.fs
      (join2 (join2 GROUPPATH g) c) = Except.ok (Kind.lnk (join2 lxcpath c)) := by
  have hg : ValidName g := hr.2 g (by simp [groupDir])
  have hcomps : comps (join2 GROUPPATH g) = groupDir g := by
    rw [comps_join2 GROUPPATH g hg]; rfl
  have h1 := (create_group_symlink_step lxcpath w g c hc hr).1 habs
  rw [h1]
  have hr2 : RealDir (w.fs ++ [(groupDir g ++ [c], Kind.lnk (join2 lxcpath c))]) (groupDir g) :=
    hr.append _
  have hk2 : kindAt (w.fs ++ [(groupDir g ++ [c], Kind.lnk (join2 lxcpath c))])
      (groupDir g ++ [c]) = some (Kind.lnk (join2 lxcpath c)) := by
    rw [kindAt_append_none _ _ _ habs]; simp
  have h2 := (create_group_symlink_step lxcpath
    ⟨w.fs ++ [(groupDir g ++ [c], Kind.lnk (join2 lxcpath c))], some Errno.ENOENT⟩ g c hc
    hr2).2 ⟨_, hk2⟩
  refine ⟨rfl, h2.1, h2.2, ?_⟩
  rw [h2.2, sys_lstat_child _ _ c _ hr2 hcomps hc, hk2]

/-- C4, instance: adding `c1` twice to the empty group `web`. -/
theorem no_overwrite_on_add_witness :
    (create_group_symlink true "/containers".toList ⟨fsWeb, none⟩ web c1).2 = true ∧
    (create_group_symlink true "/containers".toList
      (create_group_symlink true "/containers".toList ⟨fsWeb, none⟩ web c1).1 web c1).2
      = false ∧
    (create_group_symlink true "/containers".toList
      (create_group_symlink true "/containers".toList ⟨fsWeb, none⟩ web c1).1 web c1).1.fs
      = (create_group_symlink true "/containers".toList ⟨fsWeb, none⟩ web c1).1.fs ∧
    sys_lstat
      (create_group_symlink true "/containers".toList
        (create_group_symlink true "/containers".toList ⟨fsWeb, none⟩ web c1).1 web c1).1.fs
      (join2 (join2 GROUPPATH web) c1) = Except.ok (Kind.lnk (join2 "/containers".toList c1)) :=
  no_overwrite_on_add "/containers".toList ⟨fsWeb, none⟩ web c1 (by decide) (by decide)
    (by decide)

/-- C2: let the group name be non-empty and free of `/`, the full path be
shorter than 256 bytes, every ancestor of the registry root (and the root
itself) be a directory or absent, and nothing exist at the group path.  Then
`create_group_dir` called twice in a row returns `true` both times; after the
first call the group path names a directory (held by exactly one entry of the
table when the name is an entry name), and the second call leaves the
filesystem as the first one left it. -/
theorem create_group_dir_idempotent (w : World) (name : CStr) (hne : name ≠ [])
    (hs : '/' ∉ name) (hlen : (join2 GROUPPATH name).length < 256)
    (hanc : ∀ q, q <+: rootPath → kindAt w.fs q = some Kind.dir ∨ kindAt w.fs q = none)
    (habs : kindAt w.fs (groupDir name) = none) :
    ∃ w1 w2, create_group_dir w name = Except.ok (w1, true) ∧
      sys_lstat w1.fs (join2 GROUPPATH name) = Except.ok Kind.dir ∧
      (ValidName name →
        w1.fs.filter (fun e => decide (e.1 = groupDir name)) = [(groupDir name, Kind.dir)]) ∧
      create_group_dir w1 name = Except.ok (w2, true) ∧
      w2.fs = w1.fs ∧
      sys_lstat w2.fs (join2 GROUPPATH name) = Except.ok Kind.dir := by
  obtain ⟨w1, h1, hr1, hl1, hk1, _, hone⟩ :=
    create_group_dir_spec w name hne hs hlen hanc (Or.inl habs)
  obtain ⟨w2, h2, _, hl2, _, hsame, _⟩ :=
    create_group_dir_spec w1 name hne hs hlen (fun q hq => Or.inl (hr1.1 q hq)) hk1
  exact ⟨w1, w2, h1, hl1, fun hv => hone hv habs, h2, hsame hr1 hl1, hl2⟩

/-- C2, instance: creating the group `web` twice on an empty filesystem. -/
theorem create_group_dir_idempotent_witness :
    ∃ w1 w2, create_group_dir ⟨[], none⟩ web = Except.ok (w1, true) ∧
      sys_lstat w1.fs (join2 GROUPPATH web) = Except.ok Kind.dir ∧
      (ValidName web →
        w1.fs.filter (fun e => decide (e.1 = groupDir web)) = [(groupDir web, Kind.dir)]) ∧
      create_group_dir w1 web = Except.ok (w2, true) ∧
      w2.fs = w1.fs ∧
      sys_lstat w2.fs (join2 GROUPPATH web) = Except.ok Kind.dir :=
  create_group_dir_idempotent ⟨[], none⟩ web (by decide) (by decide) (by decide)
    (fun q _ => by
      cases q with
      | nil => exact Or.inl rfl
      | cons _ _ => exact Or.inr rfl)
    (by decide)

end LxcGroup
